import Mathlib

/-!
Shallow embedding of the `ArrayVec` module (src/src/arrayvec.rs): a fixed-capacity,
array-backed vector.  The backing array is modelled as a `List` whose length never
changes (it is the fixed capacity `A::CAPACITY`); the live elements are the prefix
`data.take len`.  Every mutating Rust method `fn f(&mut self, ...) -> T` becomes a
function `ArrayVec α → ... → Except Fault T × ArrayVec α`: the second component is
the state of the container afterwards, including the state observable after a panic
unwinds (mutation up to the panic point, plus any drops that run while unwinding).
Rust `panic!`/`assert!`/overflow faults become `Except.error` with a `Fault` naming
the kind of panic (debug-profile semantics: integer underflow panics).
-/

/-- Kinds of panic the arrayvec code can raise. -/
inductive Fault where
  | capacityExceeded
  | indexOutOfBounds
  | invalidRange
  | subtractUnderflow
  | unwrapNone
  deriving DecidableEq

deriving instance DecidableEq for Except

/-- The struct `ArrayVec { len: usize, data: A }`.  `data.length` is the fixed
capacity `A::CAPACITY`; no operation ever changes it. -/
structure ArrayVec (α : Type) where
  len : Nat
  data : List α
  deriving DecidableEq

/-- `A::CAPACITY`, the fixed length of the backing storage. -/
def ArrayVec.capacity (v : ArrayVec α) : Nat := v.data.length

/-- `Deref::deref`: the live prefix `&self.data.as_slice()[..self.len]`. -/
def ArrayVec.live (v : ArrayVec α) : List α := v.data.take v.len

/-- The loop of `remove`: `for target in targets.iter_mut().rev() { spare = replace(target, spare) }`.
The later elements are processed first; returns the final `spare` together with the
updated contents of the slice. -/
def revReplaceLoop (targets : List α) (spare : α) : α × List α :=
  match targets with
  | [] => (spare, [])
  | t :: rest =>
    let p := revReplaceLoop rest spare
    (t, p.1 :: p.2)

/-- The loop of `insert`: `for target in targets.iter_mut() { temp = replace(target, temp) }`.
The elements are processed front to back; returns the final `temp` together with the
updated contents of the slice. -/
def fwdReplaceLoop (targets : List α) (temp : α) : α × List α :=
  match targets with
  | [] => (temp, [])
  | t :: rest =>
    let p := fwdReplaceLoop rest t
    (p.1, temp :: p.2)

/-- `ArrayVec::push`: if `len < A::CAPACITY`, write into slot `len` and increment
`len`; otherwise panic with "ArrayVec: overflow!". -/
def ArrayVec.push (v : ArrayVec α) (x : α) : Except Fault Unit × ArrayVec α :=
  if v.len < v.data.length then
    (.ok (), { len := v.len + 1, data := v.data.set v.len x })
  else
    (.error .capacityExceeded, v)

/-- `ArrayVec::pop`: if `len > 0`, decrement `len`, then move the value out of slot
`len` (the new value), leaving a default in its place.  The slot index must be in
bounds of the backing array, else the slice index panics. -/
def ArrayVec.pop [Inhabited α] (v : ArrayVec α) : Except Fault (Option α) × ArrayVec α :=
  if v.len > 0 then
    if v.len - 1 < v.data.length then
      (.ok (some (v.data.getD (v.len - 1) default)),
       { len := v.len - 1, data := v.data.set (v.len - 1) default })
    else
      (.error .indexOutOfBounds, { v with len := v.len - 1 })
  else
    (.ok none, v)

/-- `ArrayVec::remove`: take `targets = &mut self.deref_mut()[index..]` (panics when
`len > capacity` or `index > len`), run the reverse replace loop with a default
`spare`, then `self.len -= 1` (underflow panics when `len = 0`), returning `spare`.
Note the code never checks `index < len` itself. -/
def ArrayVec.remove [Inhabited α] (v : ArrayVec α) (index : Nat) :
    Except Fault α × ArrayVec α :=
  if v.len ≤ v.data.length then
    if index ≤ v.len then
      let p := revReplaceLoop (v.live.drop index) default
      let data' := v.live.take index ++ p.2 ++ v.data.drop v.len
      if v.len > 0 then
        (.ok p.1, { len := v.len - 1, data := data' })
      else
        (.error .subtractUnderflow, { v with data := data' })
    else
      (.error .indexOutOfBounds, v)
  else
    (.error .indexOutOfBounds, v)

/-- `ArrayVec::insert`, matching on `index.cmp(&self.len)`: if `index < len`, run the
forward replace loop over `&mut self.as_mut_slice()[index..]` seeded with `item` and
push the final `temp`; if `index = len`, just push; if `index > len`, panic. -/
def ArrayVec.insert (v : ArrayVec α) (index : Nat) (item : α) :
    Except Fault Unit × ArrayVec α :=
  if index < v.len then
    if v.len ≤ v.data.length then
      let p := fwdReplaceLoop (v.live.drop index) item
      ArrayVec.push { v with data := v.live.take index ++ p.2 ++ v.data.drop v.len } p.1
    else
      (.error .indexOutOfBounds, v)
  else if index = v.len then
    ArrayVec.push v item
  else
    (.error .indexOutOfBounds, v)

/-- `ArrayVec::set_len`: panic when `new_len > A::CAPACITY`, else overwrite `len`. -/
def ArrayVec.setLen (v : ArrayVec α) (n : Nat) : Except Fault Unit × ArrayVec α :=
  if n > v.data.length then
    (.error .capacityExceeded, v)
  else
    (.ok (), { v with len := n })

/-- `ArrayVec::try_from_array_len`: accept when `len ≤ A::CAPACITY`, otherwise hand
the buffer back in the error. -/
def ArrayVec.tryFromArrayLen (data : List α) (len : Nat) : Except (List α) (ArrayVec α) :=
  if len ≤ data.length then .ok ⟨len, data⟩ else .error data

/-- The loop of `truncate` for droppable element types:
`while self.len > new_len { self.pop(); }`.  Each iteration of the Rust loop strictly
decreases `len`, so `fuel = v.len` always suffices; the fuel is only a structural
termination device. -/
def ArrayVec.truncateGo [Inhabited α] :
    Nat → ArrayVec α → Nat → Except Fault Unit × ArrayVec α
  | 0, v, _ => (.ok (), v)
  | fuel + 1, v, n =>
    if v.len > n then
      match v.pop with
      | (.ok _, v') => ArrayVec.truncateGo fuel v' n
      | (.error e, v') => (.error e, v')
    else
      (.ok (), v)

/-- `ArrayVec::truncate`: for element types that need dropping, pop until
`len ≤ new_len`; otherwise just shrink the counter to `min len new_len`. -/
def ArrayVec.truncate [Inhabited α] (needsDrop : Bool) (v : ArrayVec α) (n : Nat) :
    Except Fault Unit × ArrayVec α :=
  if needsDrop then
    ArrayVec.truncateGo v.len v n
  else
    (.ok (), { v with len := min v.len n })

/-- `ArrayVec::clear`, which is `truncate(0)`. -/
def ArrayVec.clear [Inhabited α] (needsDrop : Bool) (v : ArrayVec α) :
    Except Fault Unit × ArrayVec α :=
  ArrayVec.truncate needsDrop v 0

/-- The struct `ArrayVecDrain { parent, target_index, target_count }`.  The exclusive
borrow of the parent is modelled by storing the parent's state in the iterator. -/
structure ArrayVecDrain (α : Type) where
  parent : ArrayVec α
  target_index : Nat
  target_count : Nat
  deriving DecidableEq

/-- `ArrayVec::drain` after resolving the range bounds to `start..stop`: assert
`start ≤ stop` ("Illegal range"), then assert `stop ≤ len` ("Range ends at ... but
length is only ..."), then build the draining iterator. -/
def ArrayVec.drain (v : ArrayVec α) (start stop : Nat) : Except Fault (ArrayVecDrain α) :=
  if start ≤ stop then
    if stop ≤ v.len then
      .ok ⟨v, start, stop - start⟩
    else
      .error .indexOutOfBounds
  else
    .error .invalidRange

/-- `Iterator::next` for `ArrayVecDrain`: while `target_count > 0`, remove from the
parent at the fixed `target_index` and decrement `target_count`. -/
def ArrayVecDrain.next [Inhabited α] (d : ArrayVecDrain α) :
    Except Fault (Option α) × ArrayVecDrain α :=
  if d.target_count > 0 then
    match d.parent.remove d.target_index with
    | (.ok out, p') => (.ok (some out), ⟨p', d.target_index, d.target_count - 1⟩)
    | (.error e, p') => (.error e, ⟨p', d.target_index, d.target_count⟩)
  else
    (.ok none, d)

/-- The loop of `Drop for ArrayVecDrain`: `for _ in self {}` — step `next` until it
yields nothing.  Each yielding step decrements `target_count`, so
`fuel = target_count` suffices. -/
def ArrayVecDrain.dropGo [Inhabited α] :
    Nat → ArrayVecDrain α → Except Fault Unit × ArrayVecDrain α
  | 0, d => (.ok (), d)
  | fuel + 1, d =>
    match d.next with
    | (.ok none, d') => (.ok (), d')
    | (.ok (some _), d') => ArrayVecDrain.dropGo fuel d'
    | (.error e, d') => (.error e, d')

/-- `Drop::drop` for the draining iterator. -/
def ArrayVecDrain.drop [Inhabited α] (d : ArrayVecDrain α) :
    Except Fault Unit × ArrayVecDrain α :=
  ArrayVecDrain.dropGo d.target_count d

/-- Full consumption of the draining iterator, collecting the yielded elements in
order (as a caller's `for`/`collect` loop does). -/
def ArrayVecDrain.runGo [Inhabited α] :
    Nat → ArrayVecDrain α → List α → Except Fault (List α) × ArrayVecDrain α
  | 0, d, acc => (.ok acc.reverse, d)
  | fuel + 1, d, acc =>
    match d.next with
    | (.ok none, d') => (.ok acc.reverse, d')
    | (.ok (some x), d') => ArrayVecDrain.runGo fuel d' (x :: acc)
    | (.error e, d') => (.error e, d')

/-- Consume the whole draining iterator, collecting the yields. -/
def ArrayVecDrain.run [Inhabited α] (d : ArrayVecDrain α) :
    Except Fault (List α) × ArrayVecDrain α :=
  ArrayVecDrain.runGo d.target_count d []

/-- Advance the draining iterator `k` steps (a caller consuming only a prefix),
keeping just the iterator state. -/
def ArrayVecDrain.steps [Inhabited α] : Nat → ArrayVecDrain α → ArrayVecDrain α
  | 0, d => d
  | k + 1, d => ArrayVecDrain.steps k (d.next).2

/-- The loop of `ArrayVec::append`: `for item in other.drain(..) { self.push(item) }`.
When `push` panics, the unwind drops the draining iterator, which forces the
remaining removals from `other` before the panic propagates. -/
def ArrayVec.appendGo [Inhabited α] :
    Nat → ArrayVec α → ArrayVecDrain α → Except Fault Unit × ArrayVec α × ArrayVec α
  | 0, s, d => (.ok (), s, d.parent)
  | fuel + 1, s, d =>
    match d.next with
    | (.ok none, d') => (.ok (), s, d'.parent)
    | (.ok (some x), d') =>
      match s.push x with
      | (.ok _, s') => ArrayVec.appendGo fuel s' d'
      | (.error e, s') => (.error e, s', ((d'.drop).2).parent)
    | (.error e, d') => (.error e, s, d'.parent)

/-- `ArrayVec::append`: drain the whole of `other` (`drain(..)` resolves to
`0..other.len`, so the range asserts always pass) and push each yielded element.
Returns the final states of `self` and `other`. -/
def ArrayVec.append [Inhabited α] (s other : ArrayVec α) :
    Except Fault Unit × ArrayVec α × ArrayVec α :=
  match other.drain 0 other.len with
  | .ok d => ArrayVec.appendGo other.len s d
  | .error e => (.error e, s, other)

/-- `PartialEq for ArrayVec`: `self.deref().eq(other.deref())` — slice equality of
the live prefixes. -/
def ArrayVec.eq [DecidableEq α] (u v : ArrayVec α) : Bool :=
  decide (u.live = v.live)

/-- The struct `ArrayVecIterator { base, len, data }` (the owning iterator). -/
structure ArrayVecIterator (α : Type) where
  base : Nat
  len : Nat
  data : List α
  deriving DecidableEq

/-- `IntoIterator::into_iter` for `ArrayVec`. -/
def ArrayVec.intoIter (v : ArrayVec α) : ArrayVecIterator α :=
  ⟨0, v.len, v.data⟩

/-- `Iterator::next` for the owning iterator: while `base < len`, move the element
out of slot `base` (replacing it with a default) and advance `base`. -/
def ArrayVecIterator.next [Inhabited α] (it : ArrayVecIterator α) :
    Except Fault (Option α) × ArrayVecIterator α :=
  if it.base < it.len then
    if it.base < it.data.length then
      (.ok (some (it.data.getD it.base default)),
       { it with base := it.base + 1, data := it.data.set it.base default })
    else
      (.error .indexOutOfBounds, it)
  else
    (.ok none, it)

/-- `Iterator::last` for the owning iterator, exactly as written in the source:
`Some(replace(&mut self.data.as_slice_mut()[self.len], default))` — it indexes slot
`self.len` unconditionally (panicking when `len = capacity`). -/
def ArrayVecIterator.last [Inhabited α] (it : ArrayVecIterator α) :
    Except Fault (Option α) :=
  if it.len < it.data.length then
    .ok (some (it.data.getD it.len default))
  else
    .error .indexOutOfBounds

/-- `Iterator::nth` for the owning iterator, exactly as written in the source:
`let i = self.base + (n - 1)` (the subtraction underflows for `n = 0`), then move the
element out of slot `i` when `i < len`. -/
def ArrayVecIterator.nth [Inhabited α] (it : ArrayVecIterator α) (n : Nat) :
    Except Fault (Option α) × ArrayVecIterator α :=
  if n = 0 then
    (.error .subtractUnderflow, it)
  else
    let i := it.base + (n - 1)
    if i < it.len then
      if i < it.data.length then
        (.ok (some (it.data.getD i default)), ⟨i + 1, it.len, it.data.set i default⟩)
      else
        (.error .indexOutOfBounds, it)
    else
      (.ok none, it)

/-- The container's length/capacity invariant: `0 ≤ len ≤ capacity` (the lower bound
is automatic for `Nat`). -/
def ArrayVec.Inv (v : ArrayVec α) : Prop := v.len ≤ v.data.length

instance (v : ArrayVec α) : Decidable v.Inv := by
  unfold ArrayVec.Inv; infer_instance

/-- `ArrayVec::swap_remove`: assert `index < len`; if `index` is the last live
slot, pop; otherwise pop the last element and write it into slot `index` through
the index-mut path (`deref_mut()[index]`, which re-checks bounds against the new
length), returning the prior occupant.  `unwrap` of a `None` pop is a panic
(unreachable under the assert). -/
def ArrayVec.swapRemove [Inhabited α] (v : ArrayVec α) (index : Nat) :
    Except Fault α × ArrayVec α :=
  if index < v.len then
    if index = v.len - 1 then
      match v.pop with
      | (.ok (some out), v') => (.ok out, v')
      | (.ok none, v') => (.error .unwrapNone, v')
      | (.error e, v') => (.error e, v')
    else
      match v.pop with
      | (.ok (some i), v') =>
        if v'.len ≤ v'.data.length then
          if index < v'.len then
            (.ok (v'.data.getD index default), { v' with data := v'.data.set index i })
          else (.error .indexOutOfBounds, v')
        else (.error .indexOutOfBounds, v')
      | (.ok none, v') => (.error .unwrapNone, v')
      | (.error e, v') => (.error e, v')
  else (.error .indexOutOfBounds, v)

/-- `ArrayVec::split_off`: panic when `at > len`; otherwise build a default new vec
(same capacity, every slot default), move the live elements `[at, len)` into its
leading slots writing defaults into the vacated source slots (the
`moves.iter_mut().zip(targets)` loop runs `len - at` times since the new buffer is
at least that long), then set `new.len = len - at` and `self.len = at`.  The
source's `self.as_mut_slice()` requires `len ≤ capacity`. -/
def ArrayVec.splitOff [Inhabited α] (v : ArrayVec α) (at_ : Nat) :
    Except Fault (ArrayVec α) × ArrayVec α :=
  if at_ > v.len then (.error .indexOutOfBounds, v)
  else if v.len ≤ v.data.length then
    let moves := v.live.drop at_
    (.ok ⟨v.len - at_, moves ++ (List.replicate v.data.length default).drop moves.length⟩,
     ⟨at_, v.live.take at_ ++ List.replicate moves.length default ++ v.data.drop v.len⟩)
  else (.error .indexOutOfBounds, v)

/-- The growth loop of `resize`/`resize_with`:
`while self.len < new_len { self.push(...) }`.  The produced value is modelled as a
function of the call number (`clone` of a fixed value is the constant function).
Each iteration grows `len` by one, so `new_len - len` fuel suffices. -/
def ArrayVec.resizeGo [Inhabited α] :
    Nat → ArrayVec α → Nat → (Nat → α) → Nat → Except Fault Unit × ArrayVec α
  | 0, v, _, _, _ => (.ok (), v)
  | fuel + 1, v, newLen, f, k =>
    if v.len < newLen then
      match v.push (f k) with
      | (.ok _, v') => ArrayVec.resizeGo fuel v' newLen f (k + 1)
      | (.error e, v') => (.error e, v')
    else (.ok (), v)

/-- `ArrayVec::resize_with`, matching on `new_len.cmp(&self.len)`: shrink by
truncating, do nothing on equality, grow by pushing produced values. -/
def ArrayVec.resizeWith [Inhabited α] (needsDrop : Bool) (v : ArrayVec α)
    (newLen : Nat) (f : Nat → α) : Except Fault Unit × ArrayVec α :=
  if newLen < v.len then ArrayVec.truncate needsDrop v newLen
  else if newLen = v.len then (.ok (), v)
  else ArrayVec.resizeGo (newLen - v.len) v newLen f 0

/-- `ArrayVec::resize`: like `resize_with`, pushing a clone of the given value. -/
def ArrayVec.resize [Inhabited α] (needsDrop : Bool) (v : ArrayVec α)
    (newLen : Nat) (newVal : α) : Except Fault Unit × ArrayVec α :=
  ArrayVec.resizeWith needsDrop v newLen (fun _ => newVal)

/-- The loop of `ArrayVec::retain`: walk `i` over the live elements, removing every
element that fails the predicate via the remove primitive and advancing otherwise
(the read `self[i]` goes through deref and so needs `len ≤ capacity`).  Each
iteration shrinks `len - i`, so `v.len` fuel suffices. -/
def ArrayVec.retainGo [Inhabited α] (pred : α → Bool) :
    Nat → ArrayVec α → Nat → Except Fault Unit × ArrayVec α
  | 0, v, _ => (.ok (), v)
  | fuel + 1, v, i =>
    if i < v.len then
      if v.len ≤ v.data.length then
        if pred (v.live.getD i default) then ArrayVec.retainGo pred fuel v (i + 1)
        else
          match v.remove i with
          | (.ok _, v') => ArrayVec.retainGo pred fuel v' i
          | (.error e, v') => (.error e, v')
      else (.error .indexOutOfBounds, v)
    else (.ok (), v)

/-- `ArrayVec::retain`. -/
def ArrayVec.retain [Inhabited α] (v : ArrayVec α) (pred : α → Bool) :
    Except Fault Unit × ArrayVec α :=
  ArrayVec.retainGo pred v.len v 0

/-- `ArrayVec::extend_from_slice` (and the `Extend` impl): push a clone of each
item in order. -/
def ArrayVec.extendFromSlice : ArrayVec α → List α → Except Fault Unit × ArrayVec α
  | v, [] => (.ok (), v)
  | v, x :: rest =>
    match v.push x with
    | (.ok _, v') => ArrayVec.extendFromSlice v' rest
    | (.error e, v') => (.error e, v')

/-- One public mutating operation, for stating the reachable-state invariant.
`append` touches two containers, so it appears twice: once continuing with `self`
(`appendOther`) and once continuing with the drained argument (`appendInto`);
likewise `split_off` can continue with either the shrunk source (`splitOff`) or
the returned new container (`splitOffNew`). -/
inductive Op (α : Type) where
  | push (x : α)
  | pop
  | insert (i : Nat) (x : α)
  | remove (i : Nat)
  | swapRemove (i : Nat)
  | truncate (needsDrop : Bool) (n : Nat)
  | clear (needsDrop : Bool)
  | resize (needsDrop : Bool) (n : Nat) (x : α)
  | resizeWith (needsDrop : Bool) (n : Nat) (f : Nat → α)
  | retain (pred : α → Bool)
  | extendFromSlice (xs : List α)
  | splitOff (at_ : Nat)
  | splitOffNew (at_ : Nat)
  | appendOther (other : ArrayVec α)
  | appendInto (s : ArrayVec α)
  | setLen (n : Nat)
  | drainOp (start stop : Nat)

/-- Run one public operation on a container, discarding returned values but keeping
the panic outcome and the post-state (for `drain`, the iterator is driven to
exhaustion so the borrow ends). -/
def runOp [Inhabited α] (v : ArrayVec α) : Op α → Except Fault Unit × ArrayVec α
  | .push x => v.push x
  | .pop =>
    match v.pop with
    | (.ok _, v') => (.ok (), v')
    | (.error e, v') => (.error e, v')
  | .insert i x => v.insert i x
  | .remove i =>
    match v.remove i with
    | (.ok _, v') => (.ok (), v')
    | (.error e, v') => (.error e, v')
  | .swapRemove i =>
    match v.swapRemove i with
    | (.ok _, v') => (.ok (), v')
    | (.error e, v') => (.error e, v')
  | .truncate b n => v.truncate b n
  | .clear b => v.clear b
  | .resize b n x => ArrayVec.resize b v n x
  | .resizeWith b n f => ArrayVec.resizeWith b v n f
  | .retain pred => v.retain pred
  | .extendFromSlice xs => v.extendFromSlice xs
  | .splitOff at_ =>
    match v.splitOff at_ with
    | (.ok _, v') => (.ok (), v')
    | (.error e, v') => (.error e, v')
  | .splitOffNew at_ =>
    match v.splitOff at_ with
    | (.ok w, _) => (.ok (), w)
    | (.error e, v') => (.error e, v')
  | .appendOther other =>
    match v.append other with
    | (.ok _, s', _) => (.ok (), s')
    | (.error e, s', _) => (.error e, s')
  | .appendInto s =>
    match s.append v with
    | (.ok _, _, o') => (.ok (), o')
    | (.error e, _, o') => (.error e, o')
  | .setLen n => v.setLen n
  | .drainOp a b =>
    match v.drain a b with
    | .error e => (.error e, v)
    | .ok d =>
      match d.run with
      | (.ok _, dfin) => (.ok (), dfin.parent)
      | (.error e, dfin) => (.error e, dfin.parent)

/-- Run a sequence of public operations, stopping at the first fault (but keeping
the state observable at that fault). -/
def runOps [Inhabited α] : List (Op α) → ArrayVec α → Except Fault Unit × ArrayVec α
  | [], v => (.ok (), v)
  | op :: rest, v =>
    match runOp v op with
    | (.ok _, v') => runOps rest v'
    | (.error e, v') => (.error e, v')

/-! ### Helper lemmas about the replace loops and the live prefix -/

theorem revReplaceLoop_cons (l : List α) (a s : α) :
    revReplaceLoop (a :: l) s = (a, l ++ [s]) := by
  induction l generalizing a with
  | nil => rfl
  | cons b r ih => rw [revReplaceLoop, ih b]; rfl

theorem fwdReplaceLoop_concat (l : List α) (t c : α) :
    fwdReplaceLoop (l ++ [c]) t = (c, t :: l) := by
  induction l generalizing t with
  | nil => rfl
  | cons a r ih => simp [fwdReplaceLoop, ih]

theorem revReplaceLoop_snd_length (l : List α) (s : α) :
    ((revReplaceLoop l s).2).length = l.length := by
  cases l with
  | nil => rfl
  | cons a r => rw [revReplaceLoop_cons]; simp

theorem fwdReplaceLoop_snd_length (l : List α) (t : α) :
    ((fwdReplaceLoop l t).2).length = l.length := by
  induction l generalizing t with
  | nil => rfl
  | cons a r ih => simp [fwdReplaceLoop, ih]

theorem take_succ_set (d : List α) (n : Nat) (x : α) (h : n < d.length) :
    (d.set n x).take (n + 1) = d.take n ++ [x] := by
  induction d generalizing n with
  | nil => simp at h
  | cons a t ih =>
    cases n with
    | zero => simp
    | succ m =>
      have hm : m < t.length := by simpa using h
      simp [ih m hm]

theorem ArrayVec.live_length (v : ArrayVec α) (hwf : v.len ≤ v.data.length) :
    v.live.length = v.len := by
  simp [ArrayVec.live, Nat.min_eq_left hwf]

/-! ### Characterizations of the basic operations on well-formed containers -/

theorem ArrayVec.push_ok (v : ArrayVec α) (x : α) (h : v.len < v.data.length) :
    v.push x = (.ok (), { len := v.len + 1, data := v.data.set v.len x }) := by
  simp [ArrayVec.push, h]

theorem ArrayVec.push_err (v : ArrayVec α) (x : α) (h : v.data.length ≤ v.len) :
    v.push x = (.error .capacityExceeded, v) := by
  simp [ArrayVec.push, Nat.not_lt.2 h]

theorem ArrayVec.push_mk_ok (l : Nat) (d : List α) (x : α) (h : l < d.length) :
    ArrayVec.push ⟨l, d⟩ x = (.ok (), ⟨l + 1, d.set l x⟩) :=
  ArrayVec.push_ok ⟨l, d⟩ x h

theorem ArrayVec.push_live (v : ArrayVec α) (x : α) (h : v.len < v.data.length) :
    ((v.push x).2).live = v.live ++ [x] := by
  rw [ArrayVec.push_ok v x h]
  simp [ArrayVec.live, take_succ_set _ _ _ h]

theorem ArrayVec.pop_ok [Inhabited α] (v : ArrayVec α) (h0 : 0 < v.len)
    (hwf : v.len ≤ v.data.length) :
    v.pop = (.ok (some (v.data.getD (v.len - 1) default)),
             { len := v.len - 1, data := v.data.set (v.len - 1) default }) := by
  have h1 : v.len - 1 < v.data.length := lt_of_lt_of_le (Nat.sub_lt h0 one_pos) hwf
  simp [ArrayVec.pop, h0, h1]

theorem ArrayVec.remove_eq [Inhabited α] (v : ArrayVec α) (i : Nat)
    (hwf : v.len ≤ v.data.length) (hi : i < v.len) :
    v.remove i =
      (.ok (v.live.getD i default),
       { len := v.len - 1,
         data := v.live.take i ++ (v.live.drop (i + 1) ++ [default]) ++ v.data.drop v.len }) := by
  have hil : i < v.live.length := by rw [ArrayVec.live_length v hwf]; exact hi
  have hd : v.live.drop i = v.live.getD i default :: v.live.drop (i + 1) := by
    rw [List.getD_eq_getElem _ _ hil]
    exact List.drop_eq_getElem_cons hil
  unfold ArrayVec.remove
  rw [hd, revReplaceLoop_cons]
  simp [hwf, Nat.le_of_lt hi, Nat.lt_of_le_of_lt (Nat.zero_le i) hi]

theorem ArrayVec.remove_spec [Inhabited α] (v : ArrayVec α) (i : Nat)
    (hwf : v.len ≤ v.data.length) (hi : i < v.len) :
    (v.remove i).1 = .ok (v.live.getD i default) ∧
    ((v.remove i).2).len = v.len - 1 ∧
    ((v.remove i).2).data.length = v.data.length ∧
    ((v.remove i).2).live = v.live.take i ++ v.live.drop (i + 1) := by
  have hlive := ArrayVec.live_length v hwf
  rw [ArrayVec.remove_eq v i hwf hi]
  have len1 : (v.live.take i).length = i := by
    rw [List.length_take, hlive]; omega
  have len2 : (v.live.drop (i + 1)).length = v.len - (i + 1) := by
    rw [List.length_drop, hlive]
  refine ⟨rfl, rfl, ?_, ?_⟩
  · simp only [List.length_append, List.length_take, List.length_drop,
      List.length_cons, List.length_nil, hlive]
    omega
  · show (v.live.take i ++ (v.live.drop (i + 1) ++ [default]) ++
        v.data.drop v.len).take (v.len - 1) = v.live.take i ++ v.live.drop (i + 1)
    have hre : v.live.take i ++ (v.live.drop (i + 1) ++ [default]) ++ v.data.drop v.len
        = (v.live.take i ++ v.live.drop (i + 1)) ++ ([default] ++ v.data.drop v.len) := by
      simp
    have hAB : (v.live.take i ++ v.live.drop (i + 1)).length = v.len - 1 := by
      rw [List.length_append, len1, len2]; omega
    rw [hre, List.take_left' hAB]

theorem ArrayVec.insert_spec (v : ArrayVec α) (i : Nat) (x : α)
    (hwf : v.len < v.data.length) (hi : i ≤ v.len) :
    (v.insert i x).1 = .ok () ∧
    ((v.insert i x).2).len = v.len + 1 ∧
    ((v.insert i x).2).data.length = v.data.length ∧
    ((v.insert i x).2).live = v.live.take i ++ x :: v.live.drop i := by
  have hwf' : v.len ≤ v.data.length := Nat.le_of_lt hwf
  have hlive := ArrayVec.live_length v hwf'
  rcases Nat.lt_or_ge i v.len with hlt | hge
  · have hTlen : (v.live.drop i).length = v.len - i := by
      rw [List.length_drop, hlive]
    have hTne : v.live.drop i ≠ [] := by
      intro h
      rw [h] at hTlen
      simp at hTlen
      omega
    have hdec : (v.live.drop i).dropLast ++ [(v.live.drop i).getLast hTne] = v.live.drop i :=
      List.dropLast_append_getLast hTne
    have hloop : fwdReplaceLoop (v.live.drop i) x =
        ((v.live.drop i).getLast hTne, x :: (v.live.drop i).dropLast) := by
      conv_lhs => rw [← hdec]
      rw [fwdReplaceLoop_concat]
    have hins : v.insert i x =
        ArrayVec.push
          { v with data := v.live.take i ++ (x :: (v.live.drop i).dropLast) ++ v.data.drop v.len }
          ((v.live.drop i).getLast hTne) := by
      simp only [ArrayVec.insert, if_pos hlt, if_pos hwf']
      rw [hloop]
    have hDlen : (v.live.take i ++ (x :: (v.live.drop i).dropLast) ++ v.data.drop v.len).length
        = v.data.length := by
      simp only [List.length_append, List.length_take, List.length_cons,
        List.length_dropLast, List.length_drop, hlive]
      omega
    have hv1wf : v.len < (v.live.take i ++ (x :: (v.live.drop i).dropLast) ++
        v.data.drop v.len).length := by
      rw [hDlen]; exact hwf
    rw [hins, ArrayVec.push_mk_ok v.len _ _ hv1wf]
    refine ⟨rfl, rfl, ?_, ?_⟩
    · show ((v.live.take i ++ (x :: (v.live.drop i).dropLast) ++
          v.data.drop v.len).set v.len ((v.live.drop i).getLast hTne)).length = v.data.length
      rw [List.length_set, hDlen]
    · show ((v.live.take i ++ (x :: (v.live.drop i).dropLast) ++
          v.data.drop v.len).set v.len ((v.live.drop i).getLast hTne)).take (v.len + 1)
        = v.live.take i ++ x :: v.live.drop i
      rw [take_succ_set _ _ _ hv1wf]
      have hXlen : (v.live.take i ++ (x :: (v.live.drop i).dropLast)).length = v.len := by
        simp only [List.length_append, List.length_take, List.length_cons,
          List.length_dropLast, hTlen, hlive]
        omega
      rw [List.take_append_of_le_length (by rw [hXlen])]
      rw [List.take_of_length_le (by rw [hXlen])]
      simp only [List.cons_append, List.append_assoc, List.nil_append]
      rw [hdec]
  · have hieq : i = v.len := Nat.le_antisymm hi hge
    have h1 : ¬ (i < v.len) := by omega
    have hins : v.insert i x = ArrayVec.push v x := by
      simp only [ArrayVec.insert, if_neg h1, if_pos hieq]
    rw [hins, ArrayVec.push_ok v x hwf]
    refine ⟨rfl, rfl, by simp, ?_⟩
    · show (v.data.set v.len x).take (v.len + 1) = v.live.take i ++ x :: v.live.drop i
      rw [take_succ_set _ _ _ hwf, hieq]
      rw [List.take_of_length_le (le_of_eq hlive)]
      rw [show v.live.drop v.len = [] from by rw [← hlive, List.drop_length]]
      rfl

/-! ### Truncate loop lemmas -/

theorem ArrayVec.truncateGo_noop [Inhabited α] (fuel : Nat) (v : ArrayVec α) (n : Nat)
    (h : v.len ≤ n) : ArrayVec.truncateGo fuel v n = (.ok (), v) := by
  cases fuel with
  | zero => rfl
  | succ f => simp [ArrayVec.truncateGo, Nat.not_lt.2 h]

theorem ArrayVec.truncateGo_spec [Inhabited α] (fuel : Nat) :
    ∀ (v : ArrayVec α) (n : Nat), v.len ≤ v.data.length → v.len - n ≤ fuel →
    ∃ v1, ArrayVec.truncateGo fuel v n = (.ok (), v1) ∧ v1.len = min v.len n ∧
      v1.data.length = v.data.length := by
  induction fuel with
  | zero =>
    intro v n hwf hf
    have hvn : v.len ≤ n := by omega
    exact ⟨v, ArrayVec.truncateGo_noop 0 v n hvn, (Nat.min_eq_left hvn).symm, rfl⟩
  | succ f ih =>
    intro v n hwf hf
    by_cases h : n < v.len
    · have h0 : 0 < v.len := by omega
      have hstep : ArrayVec.truncateGo (f + 1) v n =
          ArrayVec.truncateGo f ⟨v.len - 1, v.data.set (v.len - 1) default⟩ n := by
        simp only [ArrayVec.truncateGo]
        rw [if_pos h, ArrayVec.pop_ok v h0 hwf]
      obtain ⟨v1, h1, h2, h3⟩ := ih ⟨v.len - 1, v.data.set (v.len - 1) default⟩ n
        (by show v.len - 1 ≤ (v.data.set (v.len - 1) default).length
            rw [List.length_set]; omega)
        (by show v.len - 1 - n ≤ f; omega)
      rw [List.length_set] at h3
      have h2' : v1.len = min (v.len - 1) n := h2
      refine ⟨v1, by rw [hstep]; exact h1, by omega, h3⟩
    · have hvn : v.len ≤ n := by omega
      exact ⟨v, ArrayVec.truncateGo_noop _ v n hvn, (Nat.min_eq_left hvn).symm, rfl⟩

/-! ### Draining iterator lemmas -/

theorem ArrayVec.live_drop_cons [Inhabited α] (p : ArrayVec α) (idx : Nat)
    (hwf : p.len ≤ p.data.length) (hidx : idx < p.len) :
    p.live.drop idx = p.live.getD idx default :: p.live.drop (idx + 1) := by
  have hil : idx < p.live.length := by rw [ArrayVec.live_length p hwf]; exact hidx
  rw [List.getD_eq_getElem _ _ hil]
  exact List.drop_eq_getElem_cons hil

theorem excise_step (l : List α) (idx c : Nat) (hidx : idx ≤ l.length) :
    (l.take idx ++ l.drop (idx + 1)).take idx ++ (l.take idx ++ l.drop (idx + 1)).drop (idx + c)
      = l.take idx ++ l.drop (idx + (c + 1)) := by
  have hA : (l.take idx).length = idx := by rw [List.length_take]; omega
  congr 1
  · rw [List.take_append_of_le_length (by rw [hA]), List.take_take]
    simp
  · rw [show idx + c = (l.take idx).length + c from by rw [hA], List.drop_append,
      List.drop_drop]
    congr 1
    omega

theorem ArrayVecDrain.next_spec [Inhabited α] (d : ArrayVecDrain α)
    (hwf : d.parent.len ≤ d.parent.data.length)
    (hib : d.target_index + d.target_count ≤ d.parent.len)
    (hc : 0 < d.target_count) :
    ∃ p', d.next = (.ok (some (d.parent.live.getD d.target_index default)),
                    ⟨p', d.target_index, d.target_count - 1⟩) ∧
      p'.len = d.parent.len - 1 ∧
      p'.data.length = d.parent.data.length ∧
      p'.live = d.parent.live.take d.target_index ++ d.parent.live.drop (d.target_index + 1) := by
  have hi : d.target_index < d.parent.len := by omega
  obtain ⟨h1, h2, h3, h4⟩ := ArrayVec.remove_spec d.parent d.target_index hwf hi
  refine ⟨(d.parent.remove d.target_index).2, ?_, h2, h3, h4⟩
  unfold ArrayVecDrain.next
  rw [if_pos hc]
  rcases hE : d.parent.remove d.target_index with ⟨r, p'⟩
  rw [hE] at h1
  cases r with
  | ok val =>
    simp only [Except.ok.injEq] at h1
    rw [h1]
  | error e => simp at h1

theorem ArrayVecDrain.runGo_spec [Inhabited α] :
    ∀ (c : Nat) (d : ArrayVecDrain α) (acc : List α),
      d.target_count = c →
      d.parent.len ≤ d.parent.data.length →
      d.target_index + c ≤ d.parent.len →
      ∃ pfin,
        ArrayVecDrain.runGo c d acc =
          (.ok (acc.reverse ++ (d.parent.live.drop d.target_index).take c),
           ⟨pfin, d.target_index, 0⟩) ∧
        pfin.len = d.parent.len - c ∧
        pfin.data.length = d.parent.data.length ∧
        pfin.live = d.parent.live.take d.target_index ++
          d.parent.live.drop (d.target_index + c) := by
  intro c
  induction c with
  | zero =>
    rintro ⟨p, idx, cnt⟩ acc hcnt hwf hib
    have hc0 : cnt = 0 := hcnt
    subst hc0
    dsimp only at hwf hib ⊢
    exact ⟨p, by simp [ArrayVecDrain.runGo], by omega, rfl, by simp⟩
  | succ c ih =>
    rintro ⟨p, idx, cnt⟩ acc hcnt hwf hib
    have hcs : cnt = c + 1 := hcnt
    subst hcs
    dsimp only at hwf hib ⊢
    obtain ⟨p', hnext, hlen', hdlen', hlive'⟩ :=
      ArrayVecDrain.next_spec ⟨p, idx, c + 1⟩ hwf hib (Nat.succ_pos c)
    simp only [Nat.add_sub_cancel] at hnext
    dsimp only at hlen' hdlen' hlive'
    have hstep : ArrayVecDrain.runGo (c + 1) ⟨p, idx, c + 1⟩ acc
        = ArrayVecDrain.runGo c ⟨p', idx, c⟩ (p.live.getD idx default :: acc) := by
      simp only [ArrayVecDrain.runGo]
      rw [hnext]
    have hpwf : p'.len ≤ p'.data.length := by
      rw [hlen', hdlen']; omega
    obtain ⟨pfin, h1, h2, h3, h4⟩ := ih ⟨p', idx, c⟩ (p.live.getD idx default :: acc) rfl
      hpwf (by show idx + c ≤ p'.len; rw [hlen']; omega)
    dsimp only at h2 h3 h4
    have hidxlen : idx ≤ p.live.length := by
      rw [ArrayVec.live_length p hwf]; omega
    refine ⟨pfin, ?_, by rw [h2, hlen']; omega, by rw [h3, hdlen'], ?_⟩
    · rw [hstep, h1]
      have hpd : p'.live.drop idx = p.live.drop (idx + 1) := by
        rw [hlive']
        exact List.drop_left' (by rw [List.length_take]; omega)
      have hy : p.live.drop idx = p.live.getD idx default :: p.live.drop (idx + 1) :=
        ArrayVec.live_drop_cons p idx hwf (by omega)
      rw [hpd, hy]
      simp
    · rw [h4, hlive']
      exact excise_step p.live idx c hidxlen

theorem ArrayVecDrain.dropGo_spec [Inhabited α] :
    ∀ (c : Nat) (d : ArrayVecDrain α),
      d.target_count = c →
      d.parent.len ≤ d.parent.data.length →
      d.target_index + c ≤ d.parent.len →
      ∃ pfin,
        ArrayVecDrain.dropGo c d = (.ok (), ⟨pfin, d.target_index, 0⟩) ∧
        pfin.len = d.parent.len - c ∧
        pfin.data.length = d.parent.data.length ∧
        pfin.live = d.parent.live.take d.target_index ++
          d.parent.live.drop (d.target_index + c) := by
  intro c
  induction c with
  | zero =>
    rintro ⟨p, idx, cnt⟩ hcnt hwf hib
    have hc0 : cnt = 0 := hcnt
    subst hc0
    dsimp only at hwf hib ⊢
    exact ⟨p, by simp [ArrayVecDrain.dropGo], by omega, rfl, by simp⟩
  | succ c ih =>
    rintro ⟨p, idx, cnt⟩ hcnt hwf hib
    have hcs : cnt = c + 1 := hcnt
    subst hcs
    dsimp only at hwf hib ⊢
    obtain ⟨p', hnext, hlen', hdlen', hlive'⟩ :=
      ArrayVecDrain.next_spec ⟨p, idx, c + 1⟩ hwf hib (Nat.succ_pos c)
    simp only [Nat.add_sub_cancel] at hnext
    dsimp only at hlen' hdlen' hlive'
    have hstep : ArrayVecDrain.dropGo (c + 1) ⟨p, idx, c + 1⟩
        = ArrayVecDrain.dropGo c ⟨p', idx, c⟩ := by
      simp only [ArrayVecDrain.dropGo]
      rw [hnext]
    have hpwf : p'.len ≤ p'.data.length := by
      rw [hlen', hdlen']; omega
    obtain ⟨pfin, h1, h2, h3, h4⟩ := ih ⟨p', idx, c⟩ rfl hpwf
      (by show idx + c ≤ p'.len; rw [hlen']; omega)
    dsimp only at h2 h3 h4
    have hidxlen : idx ≤ p.live.length := by
      rw [ArrayVec.live_length p hwf]; omega
    refine ⟨pfin, ?_, by rw [h2, hlen']; omega, by rw [h3, hdlen'], ?_⟩
    · rw [hstep, h1]
    · rw [h4, hlive']
      exact excise_step p.live idx c hidxlen

theorem ArrayVecDrain.steps_spec [Inhabited α] :
    ∀ (k : Nat) (d : ArrayVecDrain α),
      d.parent.len ≤ d.parent.data.length →
      d.target_index + d.target_count ≤ d.parent.len →
      k ≤ d.target_count →
      ∃ pk,
        ArrayVecDrain.steps k d = ⟨pk, d.target_index, d.target_count - k⟩ ∧
        pk.len = d.parent.len - k ∧
        pk.data.length = d.parent.data.length ∧
        pk.live = d.parent.live.take d.target_index ++
          d.parent.live.drop (d.target_index + k) := by
  intro k
  induction k with
  | zero =>
    rintro ⟨p, idx, cnt⟩ hwf hib hk
    dsimp only at hwf hib ⊢
    exact ⟨p, by simp [ArrayVecDrain.steps], by omega, rfl, by simp⟩
  | succ k ih =>
    rintro ⟨p, idx, cnt⟩ hwf hib hk
    dsimp only at hwf hib hk ⊢
    have hcpos : 0 < cnt := by omega
    obtain ⟨p', hnext, hlen', hdlen', hlive'⟩ :=
      ArrayVecDrain.next_spec ⟨p, idx, cnt⟩ hwf hib hcpos
    dsimp only at hlen' hdlen' hlive'
    have hstep : ArrayVecDrain.steps (k + 1) ⟨p, idx, cnt⟩
        = ArrayVecDrain.steps k ⟨p', idx, cnt - 1⟩ := by
      simp only [ArrayVecDrain.steps]
      rw [hnext]
    have hpwf : p'.len ≤ p'.data.length := by
      rw [hlen', hdlen']; omega
    obtain ⟨pk, h1, h2, h3, h4⟩ := ih ⟨p', idx, cnt - 1⟩ hpwf
      (by show idx + (cnt - 1) ≤ p'.len; rw [hlen']; omega) (by show k ≤ cnt - 1; omega)
    dsimp only at h1 h2 h3 h4
    have hidxlen : idx ≤ p.live.length := by
      rw [ArrayVec.live_length p hwf]; omega
    refine ⟨pk, ?_, by rw [h2, hlen']; omega, by rw [h3, hdlen'], ?_⟩
    · rw [hstep, h1]
      congr 1
      omega
    · rw [h4, hlive']
      exact excise_step p.live idx k hidxlen

/-! ### Append lemmas -/

theorem ArrayVec.appendGo_spec [Inhabited α] :
    ∀ (c : Nat) (s : ArrayVec α) (d : ArrayVecDrain α),
      d.target_index = 0 →
      d.target_count = c →
      d.parent.len = c →
      d.parent.len ≤ d.parent.data.length →
      s.len ≤ s.data.length →
      ((ArrayVec.appendGo c s d).2.2).len = 0 ∧
      ((ArrayVec.appendGo c s d).2.2).data.length = d.parent.data.length ∧
      ((ArrayVec.appendGo c s d).2.1).data.length = s.data.length ∧
      (s.len + c ≤ s.data.length →
        (ArrayVec.appendGo c s d).1 = .ok () ∧
        ((ArrayVec.appendGo c s d).2.1).len = s.len + c ∧
        ((ArrayVec.appendGo c s d).2.1).live = s.live ++ d.parent.live) ∧
      (s.data.length < s.len + c →
        (ArrayVec.appendGo c s d).1 = .error .capacityExceeded ∧
        ((ArrayVec.appendGo c s d).2.1).len = s.data.length ∧
        ((ArrayVec.appendGo c s d).2.1).live =
          s.live ++ (d.parent.live).take (s.data.length - s.len)) := by
  intro c
  induction c with
  | zero =>
    rintro s ⟨p, idx, cnt⟩ hidx hcnt hplen hpwf hswf
    dsimp only at hidx hcnt hplen hpwf ⊢
    subst hidx
    subst hcnt
    refine ⟨hplen, rfl, rfl, fun _ => ⟨rfl, ?_, ?_⟩, fun hov => absurd hov (by omega)⟩
    · show s.len = s.len + 0
      omega
    · show s.live = s.live ++ p.live
      rw [show p.live = [] from by simp [ArrayVec.live, hplen]]
      simp
  | succ c ih =>
    rintro s ⟨p, idx, cnt⟩ hidx hcnt hplen hpwf hswf
    dsimp only at hidx hcnt hplen hpwf ⊢
    subst hidx
    subst hcnt
    obtain ⟨p', hnext, hlen', hdlen', hlive'⟩ :=
      ArrayVecDrain.next_spec ⟨p, 0, c + 1⟩ hpwf (by dsimp only; omega) (Nat.succ_pos c)
    dsimp only at hnext hlen' hdlen' hlive'
    simp only [Nat.add_sub_cancel] at hnext
    have hplen' : p'.len = c := by omega
    have hpwf' : p'.len ≤ p'.data.length := by rw [hdlen']; omega
    have hylive : p.live = p.live.getD 0 default :: p.live.drop 1 := by
      have := ArrayVec.live_drop_cons p 0 hpwf (by omega)
      simpa using this
    have hplive' : p'.live = p.live.drop 1 := by
      rw [hlive']
      simp
    by_cases hpush : s.len < s.data.length
    · have hstep : ArrayVec.appendGo (c + 1) s ⟨p, 0, c + 1⟩
          = ArrayVec.appendGo c ⟨s.len + 1, s.data.set s.len (p.live.getD 0 default)⟩
              ⟨p', 0, c⟩ := by
        simp only [ArrayVec.appendGo]
        rw [hnext]
        dsimp only
        rw [ArrayVec.push_ok s _ hpush]
      obtain ⟨g1, g2, g3, g4, g5⟩ := ih ⟨s.len + 1, s.data.set s.len (p.live.getD 0 default)⟩
        ⟨p', 0, c⟩ rfl rfl hplen' hpwf'
        (by show s.len + 1 ≤ (s.data.set s.len (p.live.getD 0 default)).length
            rw [List.length_set]; omega)
      rw [hstep]
      have g3' : ((ArrayVec.appendGo c
          ⟨s.len + 1, s.data.set s.len (p.live.getD 0 default)⟩ ⟨p', 0, c⟩).2.1).data.length
          = s.data.length := by
        rw [g3]
        show (s.data.set s.len (p.live.getD 0 default)).length = s.data.length
        rw [List.length_set]
      have hslive : (⟨s.len + 1, s.data.set s.len (p.live.getD 0 default)⟩ :
          ArrayVec α).live = s.live ++ [p.live.getD 0 default] := by
        show (s.data.set s.len (p.live.getD 0 default)).take (s.len + 1)
          = s.live ++ [p.live.getD 0 default]
        rw [take_succ_set _ _ _ hpush]
        rfl
      refine ⟨g1, by rw [g2]; exact hdlen', g3', ?_, ?_⟩
      · intro hfit
        obtain ⟨e1, e2, e3⟩ := g4
          (by show s.len + 1 + c ≤ (s.data.set s.len (p.live.getD 0 default)).length
              rw [List.length_set]; omega)
        refine ⟨e1, by rw [e2]; show s.len + 1 + c = s.len + (c + 1); omega, ?_⟩
        rw [e3]
        rw [hslive, hplive', List.append_assoc]
        congr 1
        show p.live.getD 0 default :: List.drop 1 p.live = p.live
        exact hylive.symm
      · intro hov
        obtain ⟨f1, f2, f3⟩ := g5
          (by show (s.data.set s.len (p.live.getD 0 default)).length < s.len + 1 + c
              rw [List.length_set]; omega)
        refine ⟨f1, ?_, ?_⟩
        · rw [f2]
          show (s.data.set s.len (p.live.getD 0 default)).length = s.data.length
          rw [List.length_set]
        · rw [f3, hslive, hplive']
          show s.live ++ [p.live.getD 0 default] ++ (p.live.drop 1).take
              ((s.data.set s.len (p.live.getD 0 default)).length - (s.len + 1))
            = s.live ++ p.live.take (s.data.length - s.len)
          rw [List.length_set, List.append_assoc,
            show s.data.length - s.len = (s.data.length - (s.len + 1)) + 1 from by omega]
          conv_rhs => rw [hylive]
          rw [List.take_succ_cons]
          rfl
    · have hpusherr := ArrayVec.push_err s (p.live.getD 0 default) (Nat.not_lt.1 hpush)
      have hstep : ArrayVec.appendGo (c + 1) s ⟨p, 0, c + 1⟩
          = (.error .capacityExceeded, s, (((⟨p', 0, c⟩ : ArrayVecDrain α).drop).2).parent) := by
        simp only [ArrayVec.appendGo]
        rw [hnext]
        dsimp only
        rw [hpusherr]
      obtain ⟨pfin, hd1, hd2, hd3, hd4⟩ := ArrayVecDrain.dropGo_spec c ⟨p', 0, c⟩ rfl hpwf'
        (by show 0 + c ≤ p'.len; omega)
      have hdrop : ((⟨p', 0, c⟩ : ArrayVecDrain α).drop).2 = ⟨pfin, 0, 0⟩ := by
        show (ArrayVecDrain.dropGo c ⟨p', 0, c⟩).2 = ⟨pfin, 0, 0⟩
        rw [hd1]
      rw [hstep, hdrop]
      have hd2' : pfin.len = 0 := by
        have : pfin.len = p'.len - c := hd2
        omega
      have hd3' : pfin.data.length = p.data.length := by
        have : pfin.data.length = p'.data.length := hd3
        rw [this, hdlen']
      refine ⟨hd2', hd3', rfl,
        fun hfit => absurd (by omega : s.len < s.data.length) hpush,
        fun _ => ⟨rfl, by show s.len = s.data.length; omega, ?_⟩⟩
      show s.live = s.live ++ p.live.take (s.data.length - s.len)
      rw [show s.data.length - s.len = 0 from by omega]
      simp

theorem ArrayVec.append_spec [Inhabited α] (s other : ArrayVec α)
    (hs : s.len ≤ s.data.length) (ho : other.len ≤ other.data.length) :
    ((s.append other).2.2).len = 0 ∧
    (s.len + other.len ≤ s.data.length →
      (s.append other).1 = .ok () ∧
      ((s.append other).2.1).len = s.len + other.len ∧
      ((s.append other).2.1).live = s.live ++ other.live) ∧
    (s.data.length < s.len + other.len →
      (s.append other).1 = .error .capacityExceeded ∧
      ((s.append other).2.1).len = s.data.length ∧
      ((s.append other).2.1).live =
        s.live ++ other.live.take (s.data.length - s.len)) := by
  have hdr : other.drain 0 other.len = .ok ⟨other, 0, other.len⟩ := by
    unfold ArrayVec.drain
    rw [if_pos (Nat.zero_le _), if_pos (le_refl _), Nat.sub_zero]
  have happ : s.append other = ArrayVec.appendGo other.len s ⟨other, 0, other.len⟩ := by
    unfold ArrayVec.append
    rw [hdr]
  obtain ⟨g1, g2, g3, g4, g5⟩ :=
    ArrayVec.appendGo_spec other.len s ⟨other, 0, other.len⟩ rfl rfl rfl ho hs
  rw [happ]
  exact ⟨g1, g4, g5⟩

/-! ### Invariant preservation: every operation keeps `len ≤ capacity`, even at a fault -/

theorem ArrayVec.push_inv (v : ArrayVec α) (x : α) (h : v.Inv) : ((v.push x).2).Inv := by
  unfold ArrayVec.Inv at *
  by_cases hc : v.len < v.data.length
  · rw [ArrayVec.push_ok v x hc]
    show v.len + 1 ≤ (v.data.set v.len x).length
    rw [List.length_set]
    omega
  · rw [ArrayVec.push_err v x (Nat.not_lt.1 hc)]
    exact h

theorem ArrayVec.pop_inv [Inhabited α] (v : ArrayVec α) (h : v.Inv) : ((v.pop).2).Inv := by
  unfold ArrayVec.Inv at *
  unfold ArrayVec.pop
  split_ifs with h1 h2
  · show v.len - 1 ≤ (v.data.set (v.len - 1) default).length
    rw [List.length_set]
    omega
  · show v.len - 1 ≤ v.data.length
    omega
  · exact h

theorem remove_data_length [Inhabited α] (v : ArrayVec α) (i : Nat)
    (h1 : v.len ≤ v.data.length) (h2 : i ≤ v.len) :
    (v.live.take i ++ (revReplaceLoop (v.live.drop i) default).2 ++
      v.data.drop v.len).length = v.data.length := by
  simp only [List.length_append, List.length_take, revReplaceLoop_snd_length,
    List.length_drop, ArrayVec.live_length v h1]
  omega

theorem ArrayVec.remove_inv [Inhabited α] (v : ArrayVec α) (i : Nat) (h : v.Inv) :
    ((v.remove i).2).Inv := by
  unfold ArrayVec.Inv at *
  unfold ArrayVec.remove
  by_cases h1 : v.len ≤ v.data.length
  · rw [if_pos h1]
    by_cases h2 : i ≤ v.len
    · rw [if_pos h2]
      by_cases h3 : v.len > 0
      · rw [if_pos h3]
        show v.len - 1 ≤ (v.live.take i ++ (revReplaceLoop (v.live.drop i) default).2 ++
          v.data.drop v.len).length
        rw [remove_data_length v i h1 h2]
        omega
      · rw [if_neg h3]
        show v.len ≤ (v.live.take i ++ (revReplaceLoop (v.live.drop i) default).2 ++
          v.data.drop v.len).length
        rw [remove_data_length v i h1 h2]
        exact h
    · rw [if_neg h2]
      exact h
  · rw [if_neg h1]
    exact h

theorem insert_data_length (v : ArrayVec α) (i : Nat) (x : α)
    (h1 : v.len ≤ v.data.length) (h2 : i ≤ v.len) :
    (v.live.take i ++ (fwdReplaceLoop (v.live.drop i) x).2 ++
      v.data.drop v.len).length = v.data.length := by
  simp only [List.length_append, List.length_take, fwdReplaceLoop_snd_length,
    List.length_drop, ArrayVec.live_length v h1]
  omega

theorem ArrayVec.insert_inv (v : ArrayVec α) (i : Nat) (x : α) (h : v.Inv) :
    ((v.insert i x).2).Inv := by
  unfold ArrayVec.insert
  split_ifs with h1 h2 h3
  · apply ArrayVec.push_inv
    show v.len ≤ (v.live.take i ++ (fwdReplaceLoop (v.live.drop i) x).2 ++
      v.data.drop v.len).length
    rw [insert_data_length v i x h2 (Nat.le_of_lt h1)]
    exact h
  · exact h
  · exact ArrayVec.push_inv v x h
  · exact h

theorem ArrayVec.truncateGo_inv [Inhabited α] (fuel : Nat) :
    ∀ (v : ArrayVec α) (n : Nat), v.Inv → ((ArrayVec.truncateGo fuel v n).2).Inv := by
  induction fuel with
  | zero => intro v n h; exact h
  | succ f ih =>
    intro v n h
    show ((if v.len > n then
      match v.pop with
      | (.ok _, v') => ArrayVec.truncateGo f v' n
      | (.error e, v') => (.error e, v')
      else (.ok (), v)).2).Inv
    split_ifs with h1
    · rcases hE : v.pop with ⟨r, v'⟩
      have hv' : v'.Inv := by
        have := ArrayVec.pop_inv v h
        rw [hE] at this
        exact this
      cases r with
      | ok val => exact ih v' n hv'
      | error e => exact hv'
    · exact h

theorem ArrayVec.truncate_inv [Inhabited α] (b : Bool) (v : ArrayVec α) (n : Nat)
    (h : v.Inv) : ((ArrayVec.truncate b v n).2).Inv := by
  unfold ArrayVec.truncate
  split_ifs with h1
  · exact ArrayVec.truncateGo_inv v.len v n h
  · show min v.len n ≤ v.data.length
    unfold ArrayVec.Inv at h
    omega

theorem ArrayVec.setLen_inv (v : ArrayVec α) (n : Nat) (h : v.Inv) :
    ((v.setLen n).2).Inv := by
  unfold ArrayVec.setLen
  split_ifs with h1
  · exact h
  · show n ≤ v.data.length
    omega

theorem ArrayVec.swapRemove_inv [Inhabited α] (v : ArrayVec α) (i : Nat) (h : v.Inv) :
    ((v.swapRemove i).2).Inv := by
  unfold ArrayVec.swapRemove
  have hpop := ArrayVec.pop_inv v h
  by_cases h1 : i < v.len
  · rw [if_pos h1]
    rcases hE : v.pop with ⟨r, v'⟩
    rw [hE] at hpop
    by_cases h2 : i = v.len - 1
    · rw [if_pos h2]
      rcases r with e | o
      · exact hpop
      · rcases o with _ | x
        · exact hpop
        · exact hpop
    · rw [if_neg h2]
      rcases r with e | o
      · exact hpop
      · rcases o with _ | x
        · exact hpop
        · show ((if v'.len ≤ v'.data.length then
              if i < v'.len then
                ((.ok (v'.data.getD i default) : Except Fault α),
                  { v' with data := v'.data.set i x })
              else (.error .indexOutOfBounds, v')
            else (.error .indexOutOfBounds, v')).2).Inv
          split_ifs with ha hb
          · show v'.len ≤ (v'.data.set i x).length
            rw [List.length_set]
            exact ha
          · exact hpop
          · exact hpop
  · rw [if_neg h1]
    exact h

theorem ArrayVec.splitOff_inv [Inhabited α] (v : ArrayVec α) (at_ : Nat) (h : v.Inv) :
    ((v.splitOff at_).2).Inv ∧ (∀ w, (v.splitOff at_).1 = .ok w → w.Inv) := by
  have h' : v.len ≤ v.data.length := h
  unfold ArrayVec.splitOff
  by_cases h1 : at_ > v.len
  · rw [if_pos h1]
    exact ⟨h, fun w hw => absurd hw (by simp)⟩
  · rw [if_neg h1, if_pos h']
    constructor
    · show at_ ≤ (v.live.take at_ ++ List.replicate (v.live.drop at_).length default ++
        v.data.drop v.len).length
      simp only [List.length_append, List.length_take, List.length_replicate,
        List.length_drop, ArrayVec.live_length v h']
      omega
    · intro w hw
      have hw2 : Except.ok (⟨v.len - at_, v.live.drop at_ ++
          (List.replicate v.data.length default).drop (v.live.drop at_).length⟩ :
          ArrayVec α) = .ok w := hw
      obtain rfl := Except.ok.inj hw2
      show v.len - at_ ≤ (v.live.drop at_ ++
        (List.replicate v.data.length default).drop (v.live.drop at_).length).length
      simp only [List.length_append, List.length_drop, List.length_replicate,
        ArrayVec.live_length v h']
      omega

theorem ArrayVec.resizeGo_inv [Inhabited α] (fuel : Nat) :
    ∀ (v : ArrayVec α) (n : Nat) (f : Nat → α) (k : Nat), v.Inv →
      ((ArrayVec.resizeGo fuel v n f k).2).Inv := by
  induction fuel with
  | zero => intro v n f k h; exact h
  | succ fl ih =>
    intro v n f k h
    show ((if v.len < n then
        match v.push (f k) with
        | (.ok _, v') => ArrayVec.resizeGo fl v' n f (k + 1)
        | (.error e, v') => (.error e, v')
      else (.ok (), v)).2).Inv
    split_ifs with h1
    · rcases hE : v.push (f k) with ⟨r, v'⟩
      have hv' : v'.Inv := by
        have := ArrayVec.push_inv v (f k) h
        rw [hE] at this
        exact this
      cases r with
      | ok val => exact ih v' n f (k + 1) hv'
      | error e => exact hv'
    · exact h

theorem ArrayVec.resizeWith_inv [Inhabited α] (b : Bool) (v : ArrayVec α) (n : Nat)
    (f : Nat → α) (h : v.Inv) : ((ArrayVec.resizeWith b v n f).2).Inv := by
  unfold ArrayVec.resizeWith
  split_ifs with h1 h2
  · exact ArrayVec.truncate_inv b v n h
  · exact h
  · exact ArrayVec.resizeGo_inv (n - v.len) v n f 0 h

theorem ArrayVec.resize_inv [Inhabited α] (b : Bool) (v : ArrayVec α) (n : Nat)
    (x : α) (h : v.Inv) : ((ArrayVec.resize b v n x).2).Inv :=
  ArrayVec.resizeWith_inv b v n (fun _ => x) h

theorem ArrayVec.retainGo_inv [Inhabited α] (pred : α → Bool) (fuel : Nat) :
    ∀ (v : ArrayVec α) (i : Nat), v.Inv → ((ArrayVec.retainGo pred fuel v i).2).Inv := by
  induction fuel with
  | zero => intro v i h; exact h
  | succ fl ih =>
    intro v i h
    show ((if i < v.len then
        if v.len ≤ v.data.length then
          if pred (v.live.getD i default) then ArrayVec.retainGo pred fl v (i + 1)
          else
            match v.remove i with
            | (.ok _, v') => ArrayVec.retainGo pred fl v' i
            | (.error e, v') => (.error e, v')
        else (.error .indexOutOfBounds, v)
      else (.ok (), v)).2).Inv
    split_ifs with h1 h2 h3
    · exact ih v (i + 1) h
    · rcases hE : v.remove i with ⟨r, v'⟩
      have hv' : v'.Inv := by
        have := ArrayVec.remove_inv v i h
        rw [hE] at this
        exact this
      cases r with
      | ok val => exact ih v' i hv'
      | error e => exact hv'
    · exact h
    · exact h

theorem ArrayVec.retain_inv [Inhabited α] (v : ArrayVec α) (pred : α → Bool)
    (h : v.Inv) : ((v.retain pred).2).Inv :=
  ArrayVec.retainGo_inv pred v.len v 0 h

theorem ArrayVec.extendFromSlice_inv :
    ∀ (xs : List α) (v : ArrayVec α), v.Inv → ((v.extendFromSlice xs).2).Inv := by
  intro xs
  induction xs with
  | nil => intro v h; exact h
  | cons x rest ih =>
    intro v h
    show ((match v.push x with
      | (.ok _, v') => ArrayVec.extendFromSlice v' rest
      | (.error e, v') => (.error e, v')).2).Inv
    rcases hE : v.push x with ⟨r, v'⟩
    have hv' : v'.Inv := by
      have := ArrayVec.push_inv v x h
      rw [hE] at this
      exact this
    cases r with
    | ok val => exact ih v' hv'
    | error e => exact hv'

theorem ArrayVec.appendGo_self_inv [Inhabited α] (fuel : Nat) :
    ∀ (s : ArrayVec α) (d : ArrayVecDrain α), s.Inv →
      (((ArrayVec.appendGo fuel s d).2.1)).Inv := by
  induction fuel with
  | zero => intro s d h; exact h
  | succ fl ih =>
    intro s d h
    show ((match d.next with
      | (.ok none, d') => ((.ok () : Except Fault Unit), s, d'.parent)
      | (.ok (some x), d') =>
        match s.push x with
        | (.ok _, s') => ArrayVec.appendGo fl s' d'
        | (.error e, s') => (.error e, s', ((d'.drop).2).parent)
      | (.error e, d') => (.error e, s, d'.parent)).2.1).Inv
    rcases hE : d.next with ⟨r, d'⟩
    rcases r with e | o
    · exact h
    · rcases o with _ | x
      · exact h
      · show ((match s.push x with
          | (.ok _, s') => ArrayVec.appendGo fl s' d'
          | (.error e, s') => (.error e, s', ((d'.drop).2).parent)).2.1).Inv
        rcases hP : s.push x with ⟨rp, s'⟩
        have hs' : s'.Inv := by
          have := ArrayVec.push_inv s x h
          rw [hP] at this
          exact this
        cases rp with
        | ok u => exact ih s' d' hs'
        | error e => exact hs'

theorem ArrayVecDrain.next_parent_inv [Inhabited α] (d : ArrayVecDrain α)
    (h : d.parent.Inv) : (((d.next).2)).parent.Inv := by
  unfold ArrayVecDrain.next
  split_ifs with hc
  · rcases hE : d.parent.remove d.target_index with ⟨r, p'⟩
    have hp' : p'.Inv := by
      have := ArrayVec.remove_inv d.parent d.target_index h
      rw [hE] at this
      exact this
    cases r with
    | ok val => exact hp'
    | error e => exact hp'
  · exact h

theorem ArrayVecDrain.dropGo_parent_inv [Inhabited α] (fuel : Nat) :
    ∀ (d : ArrayVecDrain α), d.parent.Inv →
      ((ArrayVecDrain.dropGo fuel d).2).parent.Inv := by
  induction fuel with
  | zero => intro d h; exact h
  | succ fl ih =>
    intro d h
    show ((match d.next with
      | (.ok none, d') => ((.ok () : Except Fault Unit), d')
      | (.ok (some _), d') => ArrayVecDrain.dropGo fl d'
      | (.error e, d') => (.error e, d')).2).parent.Inv
    rcases hE : d.next with ⟨r, d'⟩
    have hd' : d'.parent.Inv := by
      have := ArrayVecDrain.next_parent_inv d h
      rw [hE] at this
      exact this
    rcases r with e | o
    · exact hd'
    · rcases o with _ | x
      · exact hd'
      · exact ih d' hd'

theorem ArrayVec.appendGo_other_inv [Inhabited α] (fuel : Nat) :
    ∀ (s : ArrayVec α) (d : ArrayVecDrain α), d.parent.Inv →
      (((ArrayVec.appendGo fuel s d).2.2)).Inv := by
  induction fuel with
  | zero => intro s d h; exact h
  | succ fl ih =>
    intro s d h
    show ((match d.next with
      | (.ok none, d') => ((.ok () : Except Fault Unit), s, d'.parent)
      | (.ok (some x), d') =>
        match s.push x with
        | (.ok _, s') => ArrayVec.appendGo fl s' d'
        | (.error e, s') => (.error e, s', ((d'.drop).2).parent)
      | (.error e, d') => (.error e, s, d'.parent)).2.2).Inv
    rcases hE : d.next with ⟨r, d'⟩
    have hd' : d'.parent.Inv := by
      have := ArrayVecDrain.next_parent_inv d h
      rw [hE] at this
      exact this
    rcases r with e | o
    · exact hd'
    · rcases o with _ | x
      · exact hd'
      · show ((match s.push x with
          | (.ok _, s') => ArrayVec.appendGo fl s' d'
          | (.error e, s') => (.error e, s', ((d'.drop).2).parent)).2.2).Inv
        rcases hP : s.push x with ⟨rp, s'⟩
        cases rp with
        | ok u => exact ih s' d' hd'
        | error e =>
          show (((d'.drop).2).parent).Inv
          exact ArrayVecDrain.dropGo_parent_inv d'.target_count d' hd'

theorem ArrayVec.append_self_inv [Inhabited α] (s other : ArrayVec α) (h : s.Inv) :
    (((s.append other).2.1)).Inv := by
  unfold ArrayVec.append
  rcases hE : other.drain 0 other.len with e | d
  · exact h
  · exact ArrayVec.appendGo_self_inv other.len s d h

theorem ArrayVec.append_other_inv [Inhabited α] (s other : ArrayVec α)
    (h : other.Inv) : (((s.append other).2.2)).Inv := by
  unfold ArrayVec.append
  rcases hE : other.drain 0 other.len with e | d
  · exact h
  · have hdr : other.drain 0 other.len = .ok ⟨other, 0, other.len⟩ := by
      unfold ArrayVec.drain
      rw [if_pos (Nat.zero_le _), if_pos (le_refl _), Nat.sub_zero]
    rw [hdr] at hE
    obtain rfl := Except.ok.inj hE
    exact ArrayVec.appendGo_other_inv other.len s ⟨other, 0, other.len⟩ h

theorem runOp_inv [Inhabited α] (v : ArrayVec α) (op : Op α) (h : v.Inv) :
    ((runOp v op).2).Inv := by
  cases op with
  | push x => exact ArrayVec.push_inv v x h
  | pop =>
    show ((match v.pop with
      | (.ok _, v') => ((.ok () : Except Fault Unit), v')
      | (.error e, v') => (.error e, v')).2).Inv
    rcases hE : v.pop with ⟨r, v'⟩
    have hv' : v'.Inv := by
      have := ArrayVec.pop_inv v h
      rw [hE] at this
      exact this
    cases r with
    | ok val => exact hv'
    | error e => exact hv'
  | insert i x => exact ArrayVec.insert_inv v i x h
  | remove i =>
    show ((match v.remove i with
      | (.ok _, v') => ((.ok () : Except Fault Unit), v')
      | (.error e, v') => (.error e, v')).2).Inv
    rcases hE : v.remove i with ⟨r, v'⟩
    have hv' : v'.Inv := by
      have := ArrayVec.remove_inv v i h
      rw [hE] at this
      exact this
    cases r with
    | ok val => exact hv'
    | error e => exact hv'
  | swapRemove i =>
    show ((match v.swapRemove i with
      | (.ok _, v') => ((.ok () : Except Fault Unit), v')
      | (.error e, v') => (.error e, v')).2).Inv
    rcases hE : v.swapRemove i with ⟨r, v'⟩
    have hv' : v'.Inv := by
      have := ArrayVec.swapRemove_inv v i h
      rw [hE] at this
      exact this
    cases r with
    | ok val => exact hv'
    | error e => exact hv'
  | truncate b n => exact ArrayVec.truncate_inv b v n h
  | clear b => exact ArrayVec.truncate_inv b v 0 h
  | resize b n x => exact ArrayVec.resize_inv b v n x h
  | resizeWith b n f => exact ArrayVec.resizeWith_inv b v n f h
  | retain pred => exact ArrayVec.retain_inv v pred h
  | extendFromSlice xs => exact ArrayVec.extendFromSlice_inv xs v h
  | splitOff at_ =>
    show ((match v.splitOff at_ with
      | (.ok _, v') => ((.ok () : Except Fault Unit), v')
      | (.error e, v') => (.error e, v')).2).Inv
    rcases hE : v.splitOff at_ with ⟨r, v'⟩
    have hv' : v'.Inv := by
      have := (ArrayVec.splitOff_inv v at_ h).1
      rw [hE] at this
      exact this
    cases r with
    | ok w => exact hv'
    | error e => exact hv'
  | splitOffNew at_ =>
    show ((match v.splitOff at_ with
      | (.ok w, _) => ((.ok () : Except Fault Unit), w)
      | (.error e, v') => (.error e, v')).2).Inv
    rcases hE : v.splitOff at_ with ⟨r, v'⟩
    cases r with
    | ok w =>
      exact (ArrayVec.splitOff_inv v at_ h).2 w (by rw [hE])
    | error e =>
      have hv' : v'.Inv := by
        have := (ArrayVec.splitOff_inv v at_ h).1
        rw [hE] at this
        exact this
      exact hv'
  | appendOther other =>
    show ((match v.append other with
      | (.ok _, s', _) => ((.ok () : Except Fault Unit), s')
      | (.error e, s', _) => (.error e, s')).2).Inv
    rcases hE : v.append other with ⟨r, s', o'⟩
    have hs' : s'.Inv := by
      have := ArrayVec.append_self_inv v other h
      rw [hE] at this
      exact this
    cases r with
    | ok u => exact hs'
    | error e => exact hs'
  | appendInto s =>
    show ((match s.append v with
      | (.ok _, _, o') => ((.ok () : Except Fault Unit), o')
      | (.error e, _, o') => (.error e, o')).2).Inv
    rcases hE : s.append v with ⟨r, s', o'⟩
    have ho' : o'.Inv := by
      have := ArrayVec.append_other_inv s v h
      rw [hE] at this
      exact this
    cases r with
    | ok u => exact ho'
    | error e => exact ho'
  | setLen n => exact ArrayVec.setLen_inv v n h
  | drainOp a b =>
    show ((match v.drain a b with
      | .error e => ((.error e : Except Fault Unit), v)
      | .ok d =>
        match d.run with
        | (.ok _, dfin) => (.ok (), dfin.parent)
        | (.error e, dfin) => (.error e, dfin.parent)).2).Inv
    by_cases ha : a ≤ b
    · by_cases hb : b ≤ v.len
      · have hdr : v.drain a b = .ok ⟨v, a, b - a⟩ := by
          unfold ArrayVec.drain
          rw [if_pos ha, if_pos hb]
        rw [hdr]
        obtain ⟨pfin, h1, h2, h3, h4⟩ := ArrayVecDrain.runGo_spec (b - a) ⟨v, a, b - a⟩ []
          rfl h (by show a + (b - a) ≤ v.len; omega)
        have hrun : (⟨v, a, b - a⟩ : ArrayVecDrain α).run =
            (.ok ([].reverse ++ (v.live.drop a).take (b - a)), ⟨pfin, a, 0⟩) := by
          show ArrayVecDrain.runGo (b - a) ⟨v, a, b - a⟩ [] = _
          rw [h1]
        dsimp only
        rw [hrun]
        show pfin.len ≤ pfin.data.length
        have h2' : pfin.len = v.len - (b - a) := h2
        have h3' : pfin.data.length = v.data.length := h3
        unfold ArrayVec.Inv at h
        omega
      · have hdr : v.drain a b = .error .indexOutOfBounds := by
          unfold ArrayVec.drain
          rw [if_pos ha, if_neg hb]
        rw [hdr]
        exact h
    · have hdr : v.drain a b = .error .invalidRange := by
        unfold ArrayVec.drain
        rw [if_neg ha]
      rw [hdr]
      exact h

theorem runOps_inv [Inhabited α] :
    ∀ (ops : List (Op α)) (v : ArrayVec α), v.Inv → ((runOps ops v).2).Inv := by
  intro ops
  induction ops with
  | nil => intro v h; exact h
  | cons op rest ih =>
    intro v h
    show ((match runOp v op with
      | (.ok _, v') => runOps rest v'
      | (.error e, v') => (.error e, v')).2).Inv
    rcases hE : runOp v op with ⟨r, v'⟩
    have hv' : v'.Inv := by
      have := runOp_inv v op h
      rw [hE] at this
      exact this
    cases r with
    | ok val => exact ih v' hv'
    | error e => exact hv'

/-- An excision lemma: taking the prefix before `idx` and dropping `idx + m` from a
list whose segment `[idx, idx + k)` was already excised excises `[idx, idx + k + m)`
of the original. -/
theorem excise_compose (l : List α) (idx k m : Nat) (hidx : idx ≤ l.length) :
    (l.take idx ++ l.drop (idx + k)).take idx ++
      (l.take idx ++ l.drop (idx + k)).drop (idx + m)
      = l.take idx ++ l.drop (idx + k + m) := by
  have hA : (l.take idx).length = idx := by rw [List.length_take]; omega
  congr 1
  · rw [List.take_append_of_le_length (by rw [hA]), List.take_take]
    simp
  · rw [show idx + m = (l.take idx).length + m from by rw [hA], List.drop_append,
      List.drop_drop]

/-! ### The claims -/

/-- C1: the spec says `remove(index)` requires `index < length` and FAILS otherwise.
The code does not fail at `index = length` (for a non-empty vec): slicing
`deref_mut()[index..]` succeeds with an empty slice, the shift loop does nothing,
`len` is silently decremented, and the default element value is returned instead of
any prior occupant.  Here `remove 2` on a length-2 vec returns `0` (the default) and
shrinks the length to 1 without touching storage — no fault is raised, contradicting
both the spec and the code's own doc comment ("Panics if the index is out of
bounds"). -/
theorem c1_remove_at_length_silently_succeeds :
    ArrayVec.remove (⟨2, [10, 20, 0, 0]⟩ : ArrayVec Nat) 2 =
      (.ok 0, ⟨1, [10, 20, 0, 0]⟩) := by
  decide

/-- C2: `push` on a container with `len < capacity` writes the value into slot `len`
and increments `len` (the live prefix gains exactly the pushed element); `push` on a
full container (`len = capacity`) fails with the capacity-overflow fault and leaves
the container — length and contents — unchanged. -/
theorem c2_push_spec (v : ArrayVec α) (x : α) :
    (v.len < v.data.length →
      v.push x = (.ok (), ⟨v.len + 1, v.data.set v.len x⟩) ∧
      ((v.push x).2).live = v.live ++ [x] ∧
      ((v.push x).2).len = v.len + 1) ∧
    (v.len = v.data.length →
      v.push x = (.error .capacityExceeded, v)) := by
  constructor
  · intro h
    refine ⟨ArrayVec.push_ok v x h, ArrayVec.push_live v x h, ?_⟩
    rw [ArrayVec.push_ok v x h]
  · intro h
    exact ArrayVec.push_err v x (le_of_eq h.symm)

/-- Witness for C2 at a concrete input: pushing 7 onto `[5]` (capacity 2) succeeds
and pushing 9 onto the then-full vec faults, leaving it unchanged. -/
theorem c2_push_witness :
    ArrayVec.push (⟨1, [5, 0]⟩ : ArrayVec Nat) 7 = (.ok (), ⟨2, [5, 7]⟩) ∧
    ArrayVec.push (⟨2, [5, 7]⟩ : ArrayVec Nat) 9 =
      (.error .capacityExceeded, ⟨2, [5, 7]⟩) := by
  constructor
  · have h := ((c2_push_spec (⟨1, [5, 0]⟩ : ArrayVec Nat) 7).1 (by decide)).1
    exact h
  · exact (c2_push_spec (⟨2, [5, 7]⟩ : ArrayVec Nat) 9).2 (by decide)

/-- C3 counterexample: `append` of `[7]` into a full `[5]` (capacity 1) does fail
with capacity-overflow, but it does NOT leave the containers unmutated: the element
7 has already been removed from `other` (and is dropped during unwinding), so
`other` ends empty rather than equal to its original state. -/
theorem c3_append_counterexample :
    (ArrayVec.append (⟨1, [5]⟩ : ArrayVec Nat) ⟨1, [7]⟩).1 =
      .error .capacityExceeded ∧
    (ArrayVec.append (⟨1, [5]⟩ : ArrayVec Nat) ⟨1, [7]⟩).2.2 ≠ ⟨1, [7]⟩ := by
  decide

/-- C3 amended: when the combined length fits, `append` moves every element of
`other` onto the end of `self` in order and leaves `other` empty; when the combined
length exceeds `self`'s capacity, `append` fails with capacity-overflow but the
containers have been mutated at the fault: `self` is filled to capacity with the
leading elements of `other` that fit, and `other` is left empty (its remaining
elements drained away during the loop and the unwind). -/
theorem c3_append_amended [Inhabited α] (s other : ArrayVec α)
    (hs : s.len ≤ s.data.length) (ho : other.len ≤ other.data.length) :
    (s.len + other.len ≤ s.data.length →
      (s.append other).1 = .ok () ∧
      ((s.append other).2.1).live = s.live ++ other.live ∧
      ((s.append other).2.1).len = s.len + other.len ∧
      ((s.append other).2.2).len = 0) ∧
    (s.data.length < s.len + other.len →
      (s.append other).1 = .error .capacityExceeded ∧
      ((s.append other).2.1).len = s.data.length ∧
      ((s.append other).2.1).live =
        s.live ++ other.live.take (s.data.length - s.len) ∧
      ((s.append other).2.2).len = 0) := by
  obtain ⟨g1, g4, g5⟩ := ArrayVec.append_spec s other hs ho
  exact ⟨fun h => ⟨(g4 h).1, (g4 h).2.2, (g4 h).2.1, g1⟩,
    fun h => ⟨(g5 h).1, (g5 h).2.1, (g5 h).2.2, g1⟩⟩

/-- Witness for the amended C3 at concrete inputs: appending `[7, 8]` to `[5]`
(capacity 3) yields live contents `[5, 7, 8]` and empties the argument; appending
`[7]` to the full `[5]` (capacity 1) faults with `self` still `[5]` (filled to
capacity, nothing more fit) and the argument emptied. -/
theorem c3_append_witness :
    (ArrayVec.append (⟨1, [5, 0, 0]⟩ : ArrayVec Nat) ⟨2, [7, 8]⟩).1 = .ok () ∧
    ((ArrayVec.append (⟨1, [5, 0, 0]⟩ : ArrayVec Nat) ⟨2, [7, 8]⟩).2.1).live =
      [5, 7, 8] ∧
    ((ArrayVec.append (⟨1, [5, 0, 0]⟩ : ArrayVec Nat) ⟨2, [7, 8]⟩).2.2).len = 0 ∧
    (ArrayVec.append (⟨1, [5]⟩ : ArrayVec Nat) ⟨1, [7]⟩).1 =
      .error .capacityExceeded ∧
    ((ArrayVec.append (⟨1, [5]⟩ : ArrayVec Nat) ⟨1, [7]⟩).2.1).live = [5] ∧
    ((ArrayVec.append (⟨1, [5]⟩ : ArrayVec Nat) ⟨1, [7]⟩).2.2).len = 0 := by
  have h := c3_append_amended (⟨1, [5, 0, 0]⟩ : ArrayVec Nat) ⟨2, [7, 8]⟩
    (by decide) (by decide)
  obtain ⟨e1, e2, e3, e4⟩ := h.1 (by decide)
  have h2 := c3_append_amended (⟨1, [5]⟩ : ArrayVec Nat) ⟨1, [7]⟩
    (by decide) (by decide)
  obtain ⟨f1, f2, f3, f4⟩ := h2.2 (by decide)
  refine ⟨e1, ?_, e4, f1, ?_, f4⟩
  · rw [e2]
    decide
  · rw [f3]
    decide

/-- C4: for a valid range `a..b`, `drain` succeeds, consuming the iterator yields
exactly the elements previously at `[a, b)` in order, and afterwards the container's
live contents equal the original with `[a, b)` excised and its length has shrunk by
`b - a`; moreover for ANY split point `k ≤ b - a`, consuming only `k` elements and
then releasing (dropping) the iterator leaves the container in that same final
state, because the drop forces the remaining removals. -/
theorem c4_drain_spec [Inhabited α] (v : ArrayVec α) (a b : Nat)
    (hwf : v.len ≤ v.data.length) (hab : a ≤ b) (hb : b ≤ v.len) :
    ∃ d, v.drain a b = .ok d ∧
      (d.run).1 = .ok ((v.live.drop a).take (b - a)) ∧
      (((d.run).2).parent).live = v.live.take a ++ v.live.drop b ∧
      (((d.run).2).parent).len = v.len - (b - a) ∧
      ∀ k, k ≤ b - a →
        ((((ArrayVecDrain.steps k d).drop).2).parent).live =
          v.live.take a ++ v.live.drop b ∧
        ((((ArrayVecDrain.steps k d).drop).2).parent).len = v.len - (b - a) := by
  have hdr : v.drain a b = .ok ⟨v, a, b - a⟩ := by
    unfold ArrayVec.drain
    rw [if_pos hab, if_pos hb]
  have hlb : a + (b - a) ≤ v.len := by omega
  have hll : v.live.length = v.len := ArrayVec.live_length v hwf
  obtain ⟨pfin, h1, h2, h3, h4⟩ := ArrayVecDrain.runGo_spec (b - a) ⟨v, a, b - a⟩ []
    rfl hwf hlb
  have hrun : (⟨v, a, b - a⟩ : ArrayVecDrain α).run
      = (.ok ((v.live.drop a).take (b - a)), ⟨pfin, a, 0⟩) := by
    show ArrayVecDrain.runGo (b - a) ⟨v, a, b - a⟩ [] = _
    rw [h1]
    rfl
  have hfinlive : pfin.live = v.live.take a ++ v.live.drop b := by
    have h4' : pfin.live = v.live.take a ++ v.live.drop (a + (b - a)) := h4
    rw [h4', show a + (b - a) = b from by omega]
  have hfinlen : pfin.len = v.len - (b - a) := h2
  refine ⟨⟨v, a, b - a⟩, hdr, by rw [hrun], by rw [hrun]; exact hfinlive,
    by rw [hrun]; exact hfinlen, ?_⟩
  intro k hk
  obtain ⟨pk, hs1, hs2, hs3, hs4⟩ := ArrayVecDrain.steps_spec k ⟨v, a, b - a⟩ hwf hlb hk
  have hs2' : pk.len = v.len - k := hs2
  have hs3' : pk.data.length = v.data.length := hs3
  have hs4' : pk.live = v.live.take a ++ v.live.drop (a + k) := hs4
  rw [hs1]
  obtain ⟨pfin2, hd1, hd2, hd3, hd4⟩ := ArrayVecDrain.dropGo_spec (b - a - k)
    ⟨pk, a, b - a - k⟩ rfl (by show pk.len ≤ pk.data.length; omega)
    (by show a + (b - a - k) ≤ pk.len; omega)
  have hdrop : ((⟨pk, a, b - a - k⟩ : ArrayVecDrain α).drop).2 = ⟨pfin2, a, 0⟩ := by
    show (ArrayVecDrain.dropGo (b - a - k) ⟨pk, a, b - a - k⟩).2 = _
    rw [hd1]
  have hd2' : pfin2.len = pk.len - (b - a - k) := hd2
  have hd4' : pfin2.live = pk.live.take a ++ pk.live.drop (a + (b - a - k)) := hd4
  constructor
  · show (((⟨pk, a, b - a - k⟩ : ArrayVecDrain α).drop).2).parent.live
      = v.live.take a ++ v.live.drop b
    rw [hdrop]
    show pfin2.live = v.live.take a ++ v.live.drop b
    rw [hd4', hs4', excise_compose v.live a k (b - a - k) (by omega)]
    rw [show a + k + (b - a - k) = b from by omega]
  · show (((⟨pk, a, b - a - k⟩ : ArrayVecDrain α).drop).2).parent.len
      = v.len - (b - a)
    rw [hdrop]
    show pfin2.len = v.len - (b - a)
    omega

/-- Witness for C4 at a concrete input: draining `1..3` of `[1, 2, 3, 4]` yields
`[2, 3]` and leaves `[1, 4]`, whether the iterator is consumed fully or released
after one step. -/
theorem c4_drain_witness :
    ∃ d, ArrayVec.drain (⟨4, [1, 2, 3, 4, 0]⟩ : ArrayVec Nat) 1 3 = .ok d ∧
      (d.run).1 = .ok [2, 3] ∧
      (((d.run).2).parent).live = [1, 4] ∧
      (((d.run).2).parent).len = 2 ∧
      ((((ArrayVecDrain.steps 1 d).drop).2).parent).live = [1, 4] := by
  obtain ⟨d, h1, h2, h3, h4, h5⟩ := c4_drain_spec (⟨4, [1, 2, 3, 4, 0]⟩ : ArrayVec Nat)
    1 3 (by decide) (by decide) (by decide)
  exact ⟨d, h1, h2, h3, h4, (h5 1 (by decide)).1⟩

/-- C5: `drain` validates `start ≤ end ≤ length` before building the iterator; an
inverted range raises the `invalidRange` fault while an end past the container's
length raises the `indexOutOfBounds` fault, and these two fault kinds are
distinct. -/
theorem c5_drain_validation (v : ArrayVec α) (a b : Nat) :
    (a ≤ b → b ≤ v.len → ∃ d, v.drain a b = .ok d) ∧
    (b < a → v.drain a b = .error .invalidRange) ∧
    (a ≤ b → v.len < b → v.drain a b = .error .indexOutOfBounds) ∧
    Fault.invalidRange ≠ Fault.indexOutOfBounds := by
  refine ⟨fun h1 h2 => ⟨⟨v, a, b - a⟩, ?_⟩, fun h => ?_, fun h1 h2 => ?_, by decide⟩
  · unfold ArrayVec.drain
    rw [if_pos h1, if_pos h2]
  · unfold ArrayVec.drain
    rw [if_neg (by omega)]
  · unfold ArrayVec.drain
    rw [if_pos h1, if_neg (by omega)]

/-- Witness for C5 at a concrete input: on a length-2 vec, `drain 1 2` succeeds,
`drain 2 1` raises the inverted-range fault, and `drain 1 3` raises the
out-of-bounds fault. -/
theorem c5_drain_witness :
    (∃ d, ArrayVec.drain (⟨2, [4, 5, 0]⟩ : ArrayVec Nat) 1 2 = .ok d) ∧
    ArrayVec.drain (⟨2, [4, 5, 0]⟩ : ArrayVec Nat) 2 1 = .error .invalidRange ∧
    ArrayVec.drain (⟨2, [4, 5, 0]⟩ : ArrayVec Nat) 1 3 = .error .indexOutOfBounds := by
  refine ⟨(c5_drain_validation (⟨2, [4, 5, 0]⟩ : ArrayVec Nat) 1 2).1 (by decide)
    (by decide), (c5_drain_validation (⟨2, [4, 5, 0]⟩ : ArrayVec Nat) 2 1).2.1
    (by decide), (c5_drain_validation (⟨2, [4, 5, 0]⟩ : ArrayVec Nat) 1 3).2.2.1
    (by decide) (by decide)⟩

/-- C6: on a container with spare capacity, `insert i v` with `i ≤ len` succeeds,
grows the length by one, puts `v` at index `i` of the live prefix, and moves every
element previously at an index `j ∈ [i, len)` to index `j + 1`, preserving relative
order; `insert` with `i > len` faults. -/
theorem c6_insert_spec [Inhabited α] (v : ArrayVec α) (i : Nat) (x : α)
    (hwf : v.len < v.data.length) :
    (i ≤ v.len →
      (v.insert i x).1 = .ok () ∧
      ((v.insert i x).2).len = v.len + 1 ∧
      ((v.insert i x).2).live.getD i default = x ∧
      ∀ j, i ≤ j → j < v.len →
        ((v.insert i x).2).live.getD (j + 1) default = v.live.getD j default) ∧
    (v.len < i → v.insert i x = (.error .indexOutOfBounds, v)) := by
  have hwf' : v.len ≤ v.data.length := Nat.le_of_lt hwf
  have hll : v.live.length = v.len := ArrayVec.live_length v hwf'
  constructor
  · intro hi
    obtain ⟨h1, h2, h3, h4⟩ := ArrayVec.insert_spec v i x hwf hi
    have hA : (v.live.take i).length = i := by
      rw [List.length_take, hll]
      omega
    refine ⟨h1, h2, ?_, ?_⟩
    · rw [h4, List.getD_append_right _ _ _ _ (by rw [hA]), hA, Nat.sub_self]
      exact List.getD_cons_zero
    · intro j hij hjlen
      rw [h4, List.getD_append_right _ _ _ _ (by rw [hA]; omega), hA,
        show j + 1 - i = (j - i) + 1 from by omega, List.getD_cons_succ]
      have hjl : j - i < (v.live.drop i).length := by
        rw [List.length_drop, hll]
        omega
      have hjv : j < v.live.length := by rw [hll]; omega
      rw [List.getD_eq_getElem _ _ hjl, List.getD_eq_getElem _ _ hjv,
        List.getElem_drop]
      congr 1
      omega
  · intro hgt
    unfold ArrayVec.insert
    rw [if_neg (by omega), if_neg (by omega)]

/-- Witness for C6 at a concrete input: inserting 4 at index 1 of `[1, 2, 3]`
succeeds with the old index-1 element found at index 2 afterwards, and inserting at
index 5 faults. -/
theorem c6_insert_witness :
    (ArrayVec.insert (⟨3, [1, 2, 3, 0, 0]⟩ : ArrayVec Nat) 1 4).1 = .ok () ∧
    ((ArrayVec.insert (⟨3, [1, 2, 3, 0, 0]⟩ : ArrayVec Nat) 1 4).2).len = 4 ∧
    ((ArrayVec.insert (⟨3, [1, 2, 3, 0, 0]⟩ : ArrayVec Nat) 1 4).2).live.getD 1 0 = 4 ∧
    ((ArrayVec.insert (⟨3, [1, 2, 3, 0, 0]⟩ : ArrayVec Nat) 1 4).2).live.getD 2 0 = 2 ∧
    ArrayVec.insert (⟨3, [1, 2, 3, 0, 0]⟩ : ArrayVec Nat) 5 9 =
      (.error .indexOutOfBounds, ⟨3, [1, 2, 3, 0, 0]⟩) := by
  obtain ⟨e1, e2, e3, e4⟩ :=
    (c6_insert_spec (⟨3, [1, 2, 3, 0, 0]⟩ : ArrayVec Nat) 1 4 (by decide)).1 (by decide)
  refine ⟨e1, e2, e3, ?_, (c6_insert_spec (⟨3, [1, 2, 3, 0, 0]⟩ : ArrayVec Nat) 5 9
    (by decide)).2 (by decide)⟩
  have h5 : ((ArrayVec.insert (⟨3, [1, 2, 3, 0, 0]⟩ : ArrayVec Nat) 1 4).2).live.getD 2 0
      = (⟨3, [1, 2, 3, 0, 0]⟩ : ArrayVec Nat).live.getD 1 0 :=
    e4 1 (by decide) (by decide)
  rw [h5]
  decide

/-- C7: the spec requires the owning iterator's stepping operations never to touch a
storage slot at an index at or past the recorded length, but the code's `last` reads
(and writes a default into) slot `self.len` itself: on an iterator holding one live
element 10 with the spare slot holding 47, `last` returns the spare value 47 — a
read past the live region, exactly the boundary defect the spec flags.  The code's
`nth` additionally computes `base + (n - 1)`, whose subtraction underflows (a panic
in a checked build) for the legitimate call `nth 0`. -/
theorem c7_iterator_reads_past_length :
    ArrayVecIterator.last (⟨0, 1, [10, 47]⟩ : ArrayVecIterator Nat) = .ok (some 47) ∧
    (ArrayVecIterator.nth (⟨0, 2, [10, 20]⟩ : ArrayVecIterator Nat) 0).1 =
      .error .subtractUnderflow := by
  decide

/-- C8: `truncate n` on a container whose length is already at most `n` is a no-op
(the state is returned unchanged, for both the dropping and the counter-only code
paths), and truncating twice with the same `n` equals truncating once. -/
theorem c8_truncate_idempotent [Inhabited α] (b : Bool) (v : ArrayVec α) (n : Nat)
    (hwf : v.len ≤ v.data.length) :
    (v.len ≤ n → ArrayVec.truncate b v n = (.ok (), v)) ∧
    (∃ v1, ArrayVec.truncate b v n = (.ok (), v1) ∧
      ArrayVec.truncate b v1 n = (.ok (), v1)) := by
  cases b with
  | true =>
    constructor
    · intro h
      show ArrayVec.truncateGo v.len v n = (.ok (), v)
      exact ArrayVec.truncateGo_noop v.len v n h
    · obtain ⟨v1, h1, h2, h3⟩ := ArrayVec.truncateGo_spec v.len v n hwf (by omega)
      refine ⟨v1, h1, ?_⟩
      show ArrayVec.truncateGo v1.len v1 n = (.ok (), v1)
      exact ArrayVec.truncateGo_noop v1.len v1 n (by omega)
  | false =>
    constructor
    · intro h
      show ((.ok (), { v with len := min v.len n }) : Except Fault Unit × ArrayVec α)
        = (.ok (), v)
      rw [Nat.min_eq_left h]
    · refine ⟨{ v with len := min v.len n }, rfl, ?_⟩
      show ((.ok (), { v with len := min (min v.len n) n }) :
        Except Fault Unit × ArrayVec α) = (.ok (), { v with len := min v.len n })
      rw [Nat.min_eq_left (Nat.min_le_right v.len n)]

/-- Witness for C8 at a concrete input: truncating `[1, 2, 3]` to 5 changes
nothing, and truncating to 1 twice equals truncating once. -/
theorem c8_truncate_witness :
    ArrayVec.truncate true (⟨3, [1, 2, 3]⟩ : ArrayVec Nat) 5 =
      (.ok (), ⟨3, [1, 2, 3]⟩) ∧
    ∃ v1, ArrayVec.truncate true (⟨3, [1, 2, 3]⟩ : ArrayVec Nat) 1 = (.ok (), v1) ∧
      ArrayVec.truncate true v1 1 = (.ok (), v1) :=
  ⟨(c8_truncate_idempotent true (⟨3, [1, 2, 3]⟩ : ArrayVec Nat) 5 (by decide)).1
      (by decide),
    (c8_truncate_idempotent true (⟨3, [1, 2, 3]⟩ : ArrayVec Nat) 1 (by decide)).2⟩

/-- C9: the invariant `0 ≤ len ≤ capacity` holds in the valid initial states (an
empty container, or one built by the validated constructor) and is preserved by
every sequence of the public operations; a faulting operation also leaves a state
satisfying the invariant. -/
theorem c9_invariant_reachable [Inhabited α] (dt : List α) (l : Nat) (w : ArrayVec α)
    (ops : List (Op α)) (v0 : ArrayVec α) :
    ((⟨0, dt⟩ : ArrayVec α).Inv) ∧
    (ArrayVec.tryFromArrayLen dt l = .ok w → w.Inv) ∧
    (v0.Inv → ((runOps ops v0).2).Inv) := by
  refine ⟨?_, ?_, fun h => runOps_inv ops v0 h⟩
  · show 0 ≤ dt.length
    omega
  · intro h
    unfold ArrayVec.tryFromArrayLen at h
    split_ifs at h with hl
    obtain rfl := Except.ok.inj h
    exact hl

/-- Witness for C9 at a concrete input: the invariant holds for the empty vec, for
a validated construction, and after a sequence exercising push, swap_remove,
extend_from_slice, resize, retain, split_off, append, drain and an out-of-bounds
remove attempt. -/
theorem c9_invariant_witness :
    (⟨0, [7, 7, 7, 7]⟩ : ArrayVec Nat).Inv ∧
    (⟨1, [7, 7, 7, 7]⟩ : ArrayVec Nat).Inv ∧
    ((runOps [Op.push 5, Op.push 6, Op.swapRemove 0, Op.extendFromSlice [1, 2],
        Op.resize true 3 9, Op.retain (fun x => x == 6), Op.splitOff 1,
        Op.appendOther ⟨1, [3]⟩, Op.drainOp 0 1, Op.remove 9]
      (⟨0, [7, 7, 7, 7]⟩ : ArrayVec Nat)).2).Inv := by
  obtain ⟨w1, w2, w3⟩ := c9_invariant_reachable [7, 7, 7, 7] 1
    (⟨1, [7, 7, 7, 7]⟩ : ArrayVec Nat)
    [Op.push 5, Op.push 6, Op.swapRemove 0, Op.extendFromSlice [1, 2],
      Op.resize true 3 9, Op.retain (fun x => x == 6), Op.splitOff 1,
      Op.appendOther ⟨1, [3]⟩, Op.drainOp 0 1, Op.remove 9]
    (⟨0, [7, 7, 7, 7]⟩ : ArrayVec Nat)
  exact ⟨w1, w2 (by decide), w3 (by decide)⟩

/-- C10: equality of containers compares only the live prefixes: two containers of
equal length whose elements agree at every live index are reported equal whatever
the spare regions `[len, capacity)` hold. -/
theorem c10_eq_ignores_spare [Inhabited α] [DecidableEq α] (u v : ArrayVec α)
    (hu : u.len ≤ u.data.length) (hv : v.len ≤ v.data.length)
    (hlen : u.len = v.len)
    (helt : ∀ i, i < u.len → u.data.getD i default = v.data.getD i default) :
    ArrayVec.eq u v = true := by
  have hul : u.live.length = u.len := ArrayVec.live_length u hu
  have hvl : v.live.length = v.len := ArrayVec.live_length v hv
  have hlive : u.live = v.live := by
    apply List.ext_getElem (by rw [hul, hvl, hlen])
    intro i hi1 hi2
    have hiu : i < u.len := by rw [← hul]; exact hi1
    have hiu' : i < u.data.length := by omega
    have hiv' : i < v.data.length := by omega
    have he := helt i hiu
    rw [List.getD_eq_getElem _ _ hiu', List.getD_eq_getElem _ _ hiv'] at he
    simp only [ArrayVec.live, List.getElem_take]
    exact he
  unfold ArrayVec.eq
  rw [hlive]
  simp

/-- Witness for C10 at a concrete input: two vecs whose live prefixes are `[1, 2]`
compare equal although their spare slots differ (7 versus 9). -/
theorem c10_eq_witness :
    ArrayVec.eq (⟨2, [1, 2, 7]⟩ : ArrayVec Nat) ⟨2, [1, 2, 9]⟩ = true :=
  c10_eq_ignores_spare (⟨2, [1, 2, 7]⟩ : ArrayVec Nat) ⟨2, [1, 2, 9]⟩
    (by decide) (by decide) (by decide) (by decide)

